import Mathlib

/-!
Verification development for the Wolfstitch Cloud text-processing core
(`wolfcore/chunker.py`, `wolfcore/cleaner.py`, `wolfcore/processor.py`).

Text is modelled as `List Char` (`Str`).  Python string operations used by
the source (`split`, `strip`, `join`, `find`, slicing) are defined below,
faithful to CPython semantics on the character level; whitespace is the
Python whitespace set restricted to its ASCII members, and `\d` is the
ASCII digit class.  All definitions are executable (structural or fuel
recursion), so concrete runs evaluate by `decide`/`rfl`.
-/

namespace Wolfstitch

abbrev Str := List Char

/-- Python whitespace (ASCII part): the character class used by
`str.split()`, `str.strip()` and the regex class `\s`. -/
def isSpace (c : Char) : Bool :=
  c = ' ' || c = '\t' || c = '\n' || c = '\r' || c = '\x0b' || c = '\x0c'

/-- ASCII digit, the regex class `\d`. -/
def isDigitC (c : Char) : Bool :=
  '0' ≤ c && c ≤ '9'

/-- Python `str.lstrip()`. -/
def lstrip (s : Str) : Str := s.dropWhile isSpace

/-- Python `str.rstrip()`. -/
def rstrip (s : Str) : Str := (s.reverse.dropWhile isSpace).reverse

/-- Python `str.strip()`. -/
def strip (s : Str) : Str := lstrip (rstrip s)

/-- Auxiliary for `splitChar`: accumulates the current piece reversed. -/
def splitCharAux (sep : Char) : Str → Str → List Str
  | [], cur => [cur.reverse]
  | a :: rest, cur =>
      if a = sep then cur.reverse :: splitCharAux sep rest []
      else splitCharAux sep rest (a :: cur)

/-- Python `s.split(sep)` for a single-character separator
(empty pieces kept): `"".split(c) = [""]`. -/
def splitChar (sep : Char) (s : Str) : List Str := splitCharAux sep s []

/-- Auxiliary for `splitWS`: accumulates the current word reversed. -/
def splitWSAux : Str → Str → List Str
  | [], cur => if cur = [] then [] else [cur.reverse]
  | c :: rest, cur =>
      if isSpace c then
        if cur = [] then splitWSAux rest [] else cur.reverse :: splitWSAux rest []
      else splitWSAux rest (c :: cur)

/-- Python `s.split()` with no argument: split on whitespace runs,
discarding empty pieces. -/
def splitWS (s : Str) : List Str := splitWSAux s []

/-- Auxiliary for `splitNN`: accumulates the current piece reversed,
emitting it at each leftmost non-overlapping `"\n\n"`. -/
def splitNNAux : Str → Str → List Str
  | [], cur => [cur.reverse]
  | [c], cur => [(c :: cur).reverse]
  | c :: d :: rest, cur =>
      if c = '\n' ∧ d = '\n' then cur.reverse :: splitNNAux rest []
      else splitNNAux (d :: rest) (c :: cur)

/-- Python `s.split("\n\n")`: leftmost non-overlapping split on the
two-character separator, empty pieces kept. -/
def splitNN (s : Str) : List Str := splitNNAux s []

/-- Python `sep.join(parts)`. -/
def joinSep (sep : Str) : List Str → Str
  | [] => []
  | [x] => x
  | x :: y :: xs => x ++ sep ++ joinSep sep (y :: xs)

/-- `startsWith needle hay`: `needle` is a prefix of `hay`. -/
def startsWith : Str → Str → Bool
  | [], _ => true
  | _ :: _, [] => false
  | a :: as, b :: bs => a = b && startsWith as bs

/-- First index at which `needle` occurs in `hay`, if any
(Python `hay.find(needle)` with `-1` modelled as `none`). -/
def pyFindIdx (needle : Str) : Str → Option Nat
  | [] => if needle = [] then some 0 else none
  | b :: bs =>
      if startsWith needle (b :: bs) then some 0
      else (pyFindIdx needle bs).map (· + 1)

/-- Fuel-driven worker for `splitOnStr`; the fuel bounds the number of
separator occurrences consumed and is chosen large enough in `splitOnStr`. -/
def splitOnStrFuel (sep : Str) : Nat → Str → List Str
  | 0, s => [s]
  | fuel + 1, s =>
      match pyFindIdx sep s with
      | none => [s]
      | some i => s.take i :: splitOnStrFuel sep fuel (s.drop (i + sep.length))

/-- Python `s.split(sep)` for a non-empty separator string. -/
def splitOnStr (sep s : Str) : List Str := splitOnStrFuel sep s.length s

/-- Sentence-end characters, the regex class `[.!?]`. -/
def isSentEnd (c : Char) : Bool :=
  c = '.' || c = '!' || c = '?'

/-- Head of the reversed current piece is a sentence-end character
(the regex lookbehind `(?<=[.!?])`). -/
def headIsSentEnd : Str → Bool
  | [] => false
  | p :: _ => isSentEnd p

/-- Worker for `sentencePieces`: `cur` is the current piece reversed,
`inSep` is true while consuming a whitespace separator run. -/
def sentAux : Str → Str → Bool → List Str
  | [], cur, _ => [cur.reverse]
  | c :: rest, cur, inSep =>
      if inSep then
        if isSpace c then sentAux rest cur true
        else sentAux rest [c] false
      else
        if isSpace c && headIsSentEnd cur then cur.reverse :: sentAux rest [] true
        else sentAux rest (c :: cur) false

/-- Python `re.split(r'(?<=[.!?])\s+', text)`: split at each maximal
whitespace run preceded by `.`, `!` or `?`. -/
def sentencePieces (s : Str) : List Str := sentAux s [] false

/-!  ## The chunker (`wolfcore/chunker.py`)  -/

/-- `Chunk` dataclass.  The `metadata` dictionary (method name, part/word
counts, separator) carries heterogeneous values and is not consulted by
any verified property, so it is not modelled. -/
structure Chunk where
  text : Str
  token_count : Nat
  start_position : Nat
  end_position : Nat
  chunk_index : Nat
deriving DecidableEq, Repr

/-- `ChunkingConfig` dataclass; `method` is a plain string as in the
source.  Integer fields are `Nat`: the source treats them as non-negative
counts. -/
structure ChunkingConfig where
  method : Str := ("paragraph").data
  max_tokens : Nat := 1024
  overlap_tokens : Nat := 0
  custom_delimiter : Option Str := none
  preserve_boundaries : Bool := true
  min_chunk_size : Nat := 50
deriving DecidableEq, Repr

/-- `TextChunker._estimate_tokens`: `int(len(text.split()) * 1.3)`.
CPython truncates the float `word_count * 1.3` toward zero, which for the
sizes representable here equals `⌊13·n/10⌋`, written with `Nat` division. -/
def estimate_tokens (text : Str) : Nat :=
  13 * (splitWS text).length / 10

/-- `Wolfstitch._estimate_tokens_char_based` (`wolfcore/processor.py`):
`len(text) // 4`. -/
def estimate_tokens_char_based (text : Str) : Nat :=
  text.length / 4

/-- `TextChunker._find_text_position`.  `hint_position` is the caller's
running character offset (always non-negative).  Python's `find` returning
`-1` is the `none` branch; `max(0, -1)` is the final `0`.  No operation in
the `try` block can raise, so the `except` branch returning the hint is
dead code and has no counterpart here. -/
def find_text_position (text chunk_text : Str) (hint_position : Nat) : Nat :=
  let search_start := hint_position - 100
  let search_end := min text.length (hint_position + chunk_text.length + 100)
  let search_area := (text.take search_end).drop search_start
  match pyFindIdx chunk_text search_area with
  | some position => search_start + position
  | none =>
      match pyFindIdx chunk_text text with
      | some position => position
      | none => 0

/-- Loop state of `TextChunker._combine_into_chunks`.  The source
initialises `text_position = 0` and never updates it in this method, so
the position hint passed to `_find_text_position` is the constant `0`. -/
structure CombState where
  chunks : List Chunk
  current_parts : List Str
  current_tokens : Nat
  chunk_index : Nat
deriving Repr

/-- One iteration of the `for part in parts` loop of
`_combine_into_chunks`. -/
def combStep (cfg : ChunkingConfig) (original : Str) (f : Str → Nat)
    (sep : Str) (st : CombState) (part : Str) : CombState :=
  let part_tokens := f part
  let st :=
    if cfg.max_tokens < st.current_tokens + part_tokens ∧ st.current_parts ≠ [] then
      let chunk_text := joinSep sep st.current_parts
      let chunk_start := find_text_position original chunk_text 0
      { chunks := st.chunks ++
          [⟨chunk_text, st.current_tokens, chunk_start,
            chunk_start + chunk_text.length, st.chunk_index⟩],
        current_parts := [], current_tokens := 0,
        chunk_index := st.chunk_index + 1 }
    else st
  { st with current_parts := st.current_parts ++ [part],
            current_tokens := st.current_tokens + part_tokens }

/-- `TextChunker._combine_into_chunks`. -/
def combine_into_chunks (cfg : ChunkingConfig) (parts : List Str)
    (original : Str) (f : Str → Nat) (sep : Str) : List Chunk :=
  let st := parts.foldl (combStep cfg original f sep) ⟨[], [], 0, 0⟩
  if st.current_parts ≠ [] then
    let chunk_text := joinSep sep st.current_parts
    let chunk_start := find_text_position original chunk_text 0
    st.chunks ++
      [⟨chunk_text, st.current_tokens, chunk_start,
        chunk_start + chunk_text.length, st.chunk_index⟩]
  else st.chunks

/-- The parts computed by `TextChunker._chunk_by_paragraphs`:
`[p.strip() for p in text.split("\n\n") if p.strip()]`. -/
def paragraph_parts (text : Str) : List Str :=
  ((splitNN text).map strip).filter (· ≠ [])

/-- The parts computed by `TextChunker._chunk_by_sentences`. -/
def sentence_parts (text : Str) : List Str :=
  ((sentencePieces text).map strip).filter (· ≠ [])

/-- The parts computed by `TextChunker._chunk_by_custom_delimiter`. -/
def custom_parts (delimiter text : Str) : List Str :=
  ((splitOnStr delimiter text).map strip).filter (· ≠ [])

/-- `TextChunker._chunk_by_paragraphs`. -/
def chunk_by_paragraphs (cfg : ChunkingConfig) (text : Str) (f : Str → Nat) :
    List Chunk :=
  combine_into_chunks cfg (paragraph_parts text) text f (("\n\n").data)

/-- `TextChunker._chunk_by_sentences`. -/
def chunk_by_sentences (cfg : ChunkingConfig) (text : Str) (f : Str → Nat) :
    List Chunk :=
  combine_into_chunks cfg (sentence_parts text) text f ((" ").data)

/-- `TextChunker._chunk_by_custom_delimiter`: an absent or empty delimiter
(Python `if not self.config.custom_delimiter`) falls back to paragraph
chunking with a logged warning. -/
def chunk_by_custom_delimiter (cfg : ChunkingConfig) (text : Str)
    (f : Str → Nat) : List Chunk :=
  match cfg.custom_delimiter with
  | none => chunk_by_paragraphs cfg text f
  | some d =>
      if d = [] then chunk_by_paragraphs cfg text f
      else combine_into_chunks cfg (custom_parts d text) text f d

/-- Worker of `TextChunker._get_overlap_words`: walk the reversed word
list, prepending words while the accumulated estimate stays within the
overlap budget, stopping at the first word that does not fit. -/
def overlapAux (f : Str → Nat) (k : Nat) : List Str → List Str → Nat → List Str
  | [], acc, _ => acc
  | w :: rest, acc, ot =>
      if ot + f w ≤ k then overlapAux f k rest (w :: acc) (ot + f w)
      else acc

/-- `TextChunker._get_overlap_words`. -/
def get_overlap_words (f : Str → Nat) (k : Nat) (words : List Str) : List Str :=
  overlapAux f k words.reverse [] 0

/-- Loop state of `TextChunker._chunk_token_aware`. -/
structure TAState where
  chunks : List Chunk
  current_chunk_words : List Str
  current_tokens : Nat
  chunk_index : Nat
  text_position : Nat
deriving Repr

/-- One iteration of the `for word in words` loop of
`_chunk_token_aware`.  `max(0, chunk_start)` is `Nat` truncated
subtraction. -/
def taStep (cfg : ChunkingConfig) (f : Str → Nat) (st : TAState)
    (word : Str) : TAState :=
  let word_tokens := f word
  let st :=
    if cfg.max_tokens < st.current_tokens + word_tokens ∧
        st.current_chunk_words ≠ [] then
      let chunk_text := joinSep ((" ").data) st.current_chunk_words
      let chunk_start := st.text_position - chunk_text.length
      let c : Chunk := ⟨chunk_text, st.current_tokens, chunk_start,
        st.text_position, st.chunk_index⟩
      if 0 < cfg.overlap_tokens then
        let overlap_words :=
          get_overlap_words f cfg.overlap_tokens st.current_chunk_words
        { chunks := st.chunks ++ [c],
          current_chunk_words := overlap_words,
          current_tokens := (overlap_words.map f).sum,
          chunk_index := st.chunk_index + 1,
          text_position := st.text_position }
      else
        { chunks := st.chunks ++ [c],
          current_chunk_words := [], current_tokens := 0,
          chunk_index := st.chunk_index + 1,
          text_position := st.text_position }
    else st
  { st with current_chunk_words := st.current_chunk_words ++ [word],
            current_tokens := st.current_tokens + word_tokens,
            text_position := st.text_position + word.length + 1 }

/-- `TextChunker._chunk_token_aware`. -/
def chunk_token_aware (cfg : ChunkingConfig) (text : Str) (f : Str → Nat) :
    List Chunk :=
  let st := (splitWS text).foldl (taStep cfg f) ⟨[], [], 0, 0, 0⟩
  if st.current_chunk_words ≠ [] then
    let chunk_text := joinSep ((" ").data) st.current_chunk_words
    st.chunks ++
      [⟨chunk_text, st.current_tokens, st.text_position - chunk_text.length,
        st.text_position, st.chunk_index⟩]
  else st.chunks

/-- `TextChunker.chunk_text`: the whitespace-only guard, then dispatch on
`config.method`, with unknown methods falling back to paragraph chunking
(logged warning, no error).  The tokenizer function is an explicit
argument; the source's `None` default resolves to `_estimate_tokens`,
i.e. `estimate_tokens` here. -/
def chunk_text (cfg : ChunkingConfig) (text : Str) (f : Str → Nat) :
    List Chunk :=
  if strip text = [] then []
  else if cfg.method = ("paragraph").data then chunk_by_paragraphs cfg text f
  else if cfg.method = ("sentence").data then chunk_by_sentences cfg text f
  else if cfg.method = ("custom").data then chunk_by_custom_delimiter cfg text f
  else if cfg.method = ("token_aware").data then chunk_token_aware cfg text f
  else chunk_by_paragraphs cfg text f

/-!  ## Content-type detection (`wolfcore/cleaner.py`)  -/

/-- `ContentType = Literal['code', 'document', 'data']`. -/
inductive ContentType where
  | code
  | document
  | data
deriving DecidableEq, Repr

/-- Python `str.lower()` restricted to ASCII (the extension tables are
ASCII, so this is the behaviour `detect_content_type` exercises). -/
def lowerChar (c : Char) : Char :=
  if 65 ≤ c.toNat ∧ c.toNat ≤ 90 then Char.ofNat (c.toNat + 32) else c

/-- Python `str.lower()` on a whole string (ASCII case mapping). -/
def pyLower (s : Str) : Str := s.map lowerChar

/-- `CODE_EXTENSIONS` from `detect_content_type`. -/
def CODE_EXTENSIONS : List Str :=
  ([".py", ".js", ".ts", ".jsx", ".tsx", ".java", ".c", ".cpp", ".h", ".hpp",
    ".cs", ".php", ".rb", ".go", ".rs", ".swift", ".kt", ".scala", ".clj",
    ".hs", ".elm", ".ex", ".exs", ".erl", ".ml", ".fs", ".vb", ".pas",
    ".asm", ".s", ".sql", ".pl", ".pm", ".t", ".cgi", ".tcl", ".vim",
    ".lua", ".dart", ".sol", ".move", ".zig", ".nim", ".cr", ".jl",
    ".r", ".m", ".sh", ".bash", ".zsh", ".fish", ".ps1", ".cmd", ".bat",
    ".toml", ".yaml", ".yml", ".ini", ".cfg", ".conf", ".xml",
    ".html", ".htm", ".css", ".scss", ".sass", ".less", ".svg",
    ".dockerfile", ".makefile", ".cmake", ".gradle", ".maven"] :
    List String).map String.data

/-- `DOCUMENT_EXTENSIONS` from `detect_content_type`. -/
def DOCUMENT_EXTENSIONS : List Str :=
  ([".pdf", ".docx", ".doc", ".epub", ".rtf", ".odt",
    ".md", ".markdown", ".rst", ".txt", ".text",
    ".pptx", ".ppt", ".odp", ".key"] : List String).map String.data

/-- `DATA_EXTENSIONS` from `detect_content_type`. -/
def DATA_EXTENSIONS : List Str :=
  ([".csv", ".tsv", ".xlsx", ".xls", ".ods",
    ".json", ".jsonl", ".ndjson", ".parquet", ".avro",
    ".sqlite", ".db", ".sql"] : List String).map String.data

/-- `detect_content_type`: lowercase the extension, then check the code,
document, and data tables in that order, defaulting to `document`. -/
def detect_content_type (file_extension : Str) : ContentType :=
  let ext := pyLower file_extension
  if ext ∈ CODE_EXTENSIONS then ContentType.code
  else if ext ∈ DOCUMENT_EXTENSIONS then ContentType.document
  else if ext ∈ DATA_EXTENSIONS then ContentType.data
  else ContentType.document

/-!  ## Lemmas: ASCII lowering  -/

theorem lowerChar_idem (c : Char) : lowerChar (lowerChar c) = lowerChar c := by
  by_cases h : 65 ≤ c.toNat ∧ c.toNat ≤ 90
  · have hc : lowerChar c = Char.ofNat (c.toNat + 32) := by
      unfold lowerChar
      rw [if_pos h]
    rw [hc]
    obtain ⟨h1, h2⟩ := h
    generalize c.toNat = n at h1 h2
    interval_cases n <;> decide
  · have hc : lowerChar c = c := by
      unfold lowerChar
      rw [if_neg h]
    rw [hc, hc]

theorem pyLower_idem (s : Str) : pyLower (pyLower s) = pyLower s := by
  unfold pyLower
  rw [List.map_map]
  exact List.map_congr_left fun c _ => lowerChar_idem c

/-- C10: the content-type classifier is case-insensitive (lowercasing the
extension does not change the result) and total with range
{code, document, data}; `".sql"`, which appears in both the code and the
data tables, classifies as code because the code table is checked first. -/
theorem C10_detect_content_type_case_insensitive_total (e : Str) :
    detect_content_type (pyLower e) = detect_content_type e ∧
    (detect_content_type e = ContentType.code ∨
      detect_content_type e = ContentType.document ∨
      detect_content_type e = ContentType.data) ∧
    ((".sql").data ∈ CODE_EXTENSIONS ∧ (".sql").data ∈ DATA_EXTENSIONS ∧
      detect_content_type ((".sql").data) = ContentType.code) := by
  refine ⟨?_, ?_, by decide, by decide, by decide⟩
  · unfold detect_content_type
    rw [pyLower_idem]
  · unfold detect_content_type
    dsimp only
    split
    · exact Or.inl rfl
    · split
      · exact Or.inr (Or.inl rfl)
      · split
        · exact Or.inr (Or.inr rfl)
        · exact Or.inr (Or.inl rfl)

/-!  ## Lemmas: whitespace splitting  -/

theorem splitWSAux_eq_nil (s : Str) :
    ∀ cur, splitWSAux s cur = [] ↔ (∀ c ∈ s, isSpace c) ∧ cur = [] := by
  induction s with
  | nil =>
      intro cur
      unfold splitWSAux
      constructor
      · intro h
        by_cases hc : cur = []
        · exact ⟨by simp, hc⟩
        · rw [if_neg hc] at h
          exact absurd h (by simp)
      · intro h
        rw [if_pos h.2]
  | cons c rest ih =>
      intro cur
      unfold splitWSAux
      by_cases hsp : isSpace c
      · rw [if_pos hsp]
        by_cases hc : cur = []
        · rw [if_pos hc, ih]
          simp [hsp, hc]
        · rw [if_neg hc]
          simp [hc]
      · rw [if_neg hsp, ih]
        simp [hsp]

theorem splitWS_eq_nil (s : Str) : splitWS s = [] ↔ ∀ c ∈ s, isSpace c := by
  rw [splitWS, splitWSAux_eq_nil]
  simp

/-- C6 counterexample: on the three-word input `"a b c"` the word-based
estimator returns `int(3 * 1.3) = 3`, while the claim's formula
`round(3 * 1.3)` is `4`; and on the non-empty input `"abc"` the char-based
estimator returns `0`, not the claimed minimum of `1`. -/
theorem C6_estimators_cx :
    estimate_tokens (("a b c").data) = 3 ∧ round ((3 : ℚ) * (13 / 10)) = 4 ∧
    estimate_tokens_char_based (("abc").data) = 0 ∧ ("abc").data ≠ [] := by
  refine ⟨by decide, by norm_num [round_eq], by decide, by decide⟩

/-- C6 (amended): the word-based estimator truncates
(`⌊word_count · 1.3⌋`, not `round`), and returns `0` exactly on inputs
with no non-whitespace character; the char-based estimator is
`⌊char_count / 4⌋` with no minimum for non-empty input (it is `0` exactly
when the input is shorter than 4 characters); both are `0` on empty
input. -/
theorem C6_estimators (s : Str) :
    estimate_tokens s = 13 * (splitWS s).length / 10 ∧
    (estimate_tokens s = 0 ↔ ∀ c ∈ s, isSpace c) ∧
    estimate_tokens_char_based s = s.length / 4 ∧
    (estimate_tokens_char_based s = 0 ↔ s.length < 4) ∧
    estimate_tokens [] = 0 ∧ estimate_tokens_char_based [] = 0 := by
  refine ⟨rfl, ?_, rfl, by unfold estimate_tokens_char_based; omega,
    by decide, by decide⟩
  rw [← splitWS_eq_nil, ← List.length_eq_zero]
  unfold estimate_tokens
  omega

/-!  ## Lemmas: substring search  -/

theorem startsWith_of_startsWith_take (n : Str) :
    ∀ (l : Str) (k : Nat), startsWith n (l.take k) = true → startsWith n l = true := by
  induction n with
  | nil => intro l k _; rfl
  | cons x xs ih =>
      intro l k h
      cases l with
      | nil => simpa using h
      | cons y ys =>
          cases k with
          | zero => simp [startsWith] at h
          | succ k =>
              rw [List.take_succ_cons] at h
              unfold startsWith at h ⊢
              simp only [Bool.and_eq_true] at h ⊢
              exact ⟨h.1, ih (ys) k h.2⟩

theorem pyFindIdx_eq_none_iff (n : Str) :
    ∀ h : Str, pyFindIdx n h = none ↔ ∀ i, ¬ startsWith n (h.drop i) = true := by
  intro h
  induction h with
  | nil =>
      unfold pyFindIdx
      by_cases hn : n = []
      · subst hn
        simp [startsWith]
      · simp only [if_neg hn, true_iff]
        intro i hsw
        cases n with
        | nil => exact hn rfl
        | cons a as => simp [startsWith] at hsw
  | cons b bs ih =>
      unfold pyFindIdx
      by_cases hsw : startsWith n (b :: bs) = true
      · simp only [if_pos hsw]
        constructor
        · intro hcontra; exact absurd hcontra (by simp)
        · intro hall; exact absurd hsw (hall 0)
      · have hmap : (pyFindIdx n bs).map (· + 1) = none ↔ pyFindIdx n bs = none := by
          cases pyFindIdx n bs <;> simp
        simp only [if_neg hsw, hmap, ih]
        constructor
        · intro hall i
          cases i with
          | zero => exact fun hc => hsw hc
          | succ i => exact hall i
        · intro hall i
          exact hall (i + 1)

theorem pyFindIdx_slice_none (n h : Str) (a b : Nat)
    (hfull : pyFindIdx n h = none) : pyFindIdx n ((h.take b).drop a) = none := by
  rw [pyFindIdx_eq_none_iff] at hfull ⊢
  intro i hsw
  rw [List.drop_take, List.drop_take, List.drop_drop] at hsw
  exact hfull (a + i)
    (startsWith_of_startsWith_take n (h.drop (a + i)) (b - a - i) hsw)

/-- C7 counterexample: with text `"hello"`, chunk text `"zzz"` (found by
neither search) and hint position `5`, `_find_text_position` returns `0`
(`max(0, -1)`), not the hint `5` the claim states. -/
theorem C7_find_position_cx :
    pyFindIdx (("zzz").data) (("hello").data) = none ∧
    find_text_position (("hello").data) (("zzz").data) 5 = 0 ∧ (0 : Nat) ≠ 5 := by
  refine ⟨by decide, by decide, by decide⟩

/-- C7 (amended): when the chunk text occurs nowhere in the original text
(so neither the local-window search nor the full-text search finds it),
`_find_text_position` returns `0` — the clamp `max(0, -1)` of Python's
failed `find` — for every hint position; the function is total (the
`try` body contains no raising operation, so it never raises). -/
theorem C7_find_position_not_found (text chunk_text : Str)
    (hint_position : Nat) (h : pyFindIdx chunk_text text = none) :
    find_text_position text chunk_text hint_position = 0 := by
  unfold find_text_position
  have hw := pyFindIdx_slice_none chunk_text text (hint_position - 100)
    (min text.length (hint_position + chunk_text.length + 100)) h
  simp only [hw, h]

/-- C7 witness: the amended theorem applied at a concrete miss. -/
theorem C7_find_position_witness :
    pyFindIdx (("xyz").data) (("hello world").data) = none ∧
    find_text_position (("hello world").data) (("xyz").data) 7 = 0 :=
  ⟨by decide, C7_find_position_not_found _ _ 7 (by decide)⟩

/-!  ## C1: configuration handling of `chunk_text`  -/

/-- C1 counterexample: `method == "custom"` with no delimiter raises
nothing and returns a (paragraph-style) chunk list: on `"Hello world"`
it returns exactly one chunk. -/
theorem C1_custom_no_delimiter_cx :
    (chunk_text { method := ("custom").data } (("Hello world").data)
      estimate_tokens).length = 1 := by
  decide

/-- C1 (amended): with `method == "custom"` and a missing or empty
delimiter, or with a method string outside
{paragraph, sentence, custom, token_aware}, `chunk_text` does not raise:
it logs a warning and falls back to paragraph chunking, returning the
paragraph-path result for the same configuration. -/
theorem C1_invalid_config_falls_back (cfg : ChunkingConfig) (text : Str)
    (f : Str → Nat)
    (h : (cfg.method = ("custom").data ∧
          (cfg.custom_delimiter = none ∨ cfg.custom_delimiter = some [])) ∨
         cfg.method ∉ [("paragraph").data, ("sentence").data,
                       ("custom").data, ("token_aware").data]) :
    chunk_text cfg text f =
      if strip text = [] then []
      else combine_into_chunks cfg (paragraph_parts text) text f (("\n\n").data) := by
  unfold chunk_text
  by_cases hempty : strip text = []
  · rw [if_pos hempty, if_pos hempty]
  · rw [if_neg hempty, if_neg hempty]
    rcases h with ⟨hm, hd⟩ | hm
    · rw [hm]
      rw [if_neg (by decide), if_neg (by decide), if_pos rfl]
      unfold chunk_by_custom_delimiter
      rcases hd with hd | hd
      · rw [hd]
        rfl
      · rw [hd]
        rfl
    · simp only [List.mem_cons, List.mem_singleton, not_or] at hm
      obtain ⟨h1, h2, h3, h4⟩ := hm
      rw [if_neg h1, if_neg h2, if_neg h3, if_neg (by simpa using h4)]
      rfl

/-- C1 witness: the amended theorem at an unknown method string. -/
theorem C1_invalid_config_witness :
    chunk_text { method := ("zigzag").data } (("a").data) estimate_tokens =
      if strip (("a").data) = [] then []
      else combine_into_chunks { method := ("zigzag").data }
        (paragraph_parts (("a").data)) (("a").data) estimate_tokens
        (("\n\n").data) :=
  C1_invalid_config_falls_back _ _ _ (Or.inr (by decide))

/-!  ## C5: the concrete three-paragraph scenario  -/

/-- The spec's concrete input
`"First paragraph.\n\nSecond paragraph.\n\nThird paragraph."`. -/
def c5_input : Str :=
  ("First paragraph.\n\nSecond paragraph.\n\nThird paragraph.").data

/-- C5 counterexample: with `max_tokens = 5` the chunker returns 2 chunks,
not the 3 the claim states — each paragraph estimates to 2 tokens, so the
first two paragraphs (4 tokens) are combined before the budget is hit. -/
theorem C5_three_paragraphs_cx :
    (chunk_text { method := ("paragraph").data, max_tokens := 5 } c5_input
      estimate_tokens).length = 2 ∧ (2 : Nat) ≠ 3 := by
  exact ⟨by decide, by decide⟩

/-- C5 (amended): with `max_tokens = 100` the chunker returns exactly one
chunk holding all three paragraphs joined by `"\n\n"` (index 0); with
`max_tokens = 5` it returns exactly two chunks — the first two paragraphs
joined by `"\n\n"` (index 0) and the third paragraph (index 1). -/
theorem C5_three_paragraphs :
    (chunk_text { method := ("paragraph").data, max_tokens := 100 } c5_input
        estimate_tokens).map (fun c => (c.text, c.chunk_index)) =
      [(c5_input, 0)] ∧
    (chunk_text { method := ("paragraph").data, max_tokens := 5 } c5_input
        estimate_tokens).map (fun c => (c.text, c.chunk_index)) =
      [((("First paragraph.\n\nSecond paragraph.").data), 0),
       ((("Third paragraph.").data), 1)] := by
  exact ⟨by decide, by decide⟩

/-!  ## Lemmas: joining and stripping  -/

theorem joinSep_cons (sep x : Str) (l : List Str) (h : l ≠ []) :
    joinSep sep (x :: l) = x ++ sep ++ joinSep sep l := by
  cases l with
  | nil => exact absurd rfl h
  | cons y ys => rfl

theorem joinSep_regroup (sep a b : Str) :
    ∀ (xs rest : List Str),
    joinSep sep (xs ++ (a ++ sep ++ b) :: rest) = joinSep sep (xs ++ a :: b :: rest) := by
  intro xs
  induction xs with
  | nil =>
      intro rest
      cases rest with
      | nil => simp [joinSep]
      | cons r rs =>
          rw [List.nil_append, List.nil_append,
            joinSep_cons sep _ _ (by simp),
            joinSep_cons sep a (b :: r :: rs) (by simp),
            joinSep_cons sep b (r :: rs) (by simp)]
          simp [List.append_assoc]
  | cons x xs ih =>
      intro rest
      rw [List.cons_append, List.cons_append,
        joinSep_cons sep x _ (by simp),
        joinSep_cons sep x _ (by simp), ih]

theorem joinSep_append_singleton (sep y : Str) (l : List Str) (h : l ≠ []) :
    joinSep sep (l ++ [y]) = joinSep sep l ++ sep ++ y := by
  induction l with
  | nil => exact absurd rfl h
  | cons x xs ih =>
      cases xs with
      | nil => rfl
      | cons z zs =>
          rw [List.cons_append, joinSep_cons sep x _ (by simp),
            joinSep_cons sep x (z :: zs) (by simp), ih (by simp)]
          simp [List.append_assoc]

theorem mem_joinSep (sep : Str) :
    ∀ (ls : List Str) (p : Str), p ∈ ls → ∀ c ∈ p, c ∈ joinSep sep ls := by
  intro ls
  induction ls with
  | nil => intro p hp; simp at hp
  | cons x xs ih =>
      intro p hp c hc
      cases xs with
      | nil =>
          simp at hp
          subst hp
          exact hc
      | cons z zs =>
          rw [joinSep_cons sep x (z :: zs) (by simp)]
          rcases List.mem_cons.mp hp with hp | hp
          · subst hp
            simp [hc]
          · simp [ih p hp c hc]

theorem not_space_mem_dropWhile (l : Str) (c : Char) (hc : c ∈ l)
    (hns : ¬ isSpace c = true) : c ∈ l.dropWhile isSpace := by
  have := List.takeWhile_append_dropWhile isSpace l
  rw [← this] at hc
  rcases List.mem_append.mp hc with h | h
  · exact absurd (List.mem_takeWhile_imp h) hns
  · exact h

theorem mem_of_mem_rstrip (l : Str) (c : Char) (hc : c ∈ rstrip l) : c ∈ l := by
  unfold rstrip at hc
  rw [List.mem_reverse] at hc
  have := (List.dropWhile_sublist (l := l.reverse) (p := isSpace)).subset hc
  exact List.mem_reverse.mp this

theorem mem_of_mem_strip (l : Str) (c : Char) (hc : c ∈ strip l) : c ∈ l := by
  unfold strip lstrip at hc
  exact mem_of_mem_rstrip l c ((List.dropWhile_sublist _).subset hc)

theorem strip_eq_nil_iff (s : Str) : strip s = [] ↔ ∀ c ∈ s, isSpace c := by
  constructor
  · intro h c hc
    by_contra hns
    have hmem : c ∈ rstrip s := by
      unfold rstrip
      rw [List.mem_reverse]
      exact not_space_mem_dropWhile s.reverse c (List.mem_reverse.mpr hc) hns
    have : c ∈ strip s := by
      unfold strip lstrip
      exact not_space_mem_dropWhile (rstrip s) c hmem hns
    rw [h] at this
    simp at this
  · intro h
    unfold strip lstrip
    rw [List.dropWhile_eq_nil_iff]
    intro c hc
    exact h c (mem_of_mem_rstrip s c hc)

/-!  ## Lemmas: characters of split pieces come from the input  -/

theorem splitNNAux_chars :
    ∀ (s cur : Str), ∀ p ∈ splitNNAux s cur, ∀ c ∈ p, c ∈ cur ∨ c ∈ s := by
  intro s cur
  induction s, cur using splitNNAux.induct with
  | case1 cur =>
      intro p hp c hc
      simp [splitNNAux] at hp
      subst hp
      simp at hc
      exact Or.inl hc
  | case2 c0 cur =>
      intro p hp c hc
      simp [splitNNAux] at hp
      subst hp
      simp at hc
      rcases hc with hc | hc
      · exact Or.inl hc
      · exact Or.inr (by simp [hc])
  | case3 c0 d rest cur h ih =>
      intro p hp c hc
      rw [splitNNAux, if_pos h] at hp
      rcases List.mem_cons.mp hp with hp | hp
      · subst hp
        simp at hc
        exact Or.inl hc
      · rcases ih p hp c hc with hcc | hcc
        · simp at hcc
        · exact Or.inr (by simp [hcc])
  | case4 c0 d rest cur h ih =>
      intro p hp c hc
      rw [splitNNAux, if_neg h] at hp
      rcases ih p hp c hc with hcc | hcc
      · simp at hcc
        rcases hcc with hcc | hcc
        · exact Or.inr (by simp [hcc])
        · exact Or.inl hcc
      · exact Or.inr (by simp [hcc])

theorem sentAux_chars :
    ∀ (s cur : Str) (b : Bool), ∀ p ∈ sentAux s cur b, ∀ c ∈ p, c ∈ cur ∨ c ∈ s := by
  intro s
  induction s with
  | nil =>
      intro cur b p hp c hc
      simp [sentAux] at hp
      subst hp
      simp at hc
      exact Or.inl hc
  | cons c0 rest ih =>
      intro cur b p hp c hc
      unfold sentAux at hp
      by_cases hb : b
      · rw [if_pos hb] at hp
        by_cases hsp : isSpace c0 = true
        · rw [if_pos hsp] at hp
          rcases ih cur true p hp c hc with h | h
          · exact Or.inl h
          · exact Or.inr (by simp [h])
        · rw [if_neg hsp] at hp
          rcases ih [c0] false p hp c hc with h | h
          · simp at h
            exact Or.inr (by simp [h])
          · exact Or.inr (by simp [h])
      · rw [if_neg hb] at hp
        by_cases hm : (isSpace c0 && headIsSentEnd cur) = true
        · rw [if_pos hm] at hp
          rcases List.mem_cons.mp hp with hp | hp
          · subst hp
            simp at hc
            exact Or.inl hc
          · rcases ih [] true p hp c hc with h | h
            · simp at h
            · exact Or.inr (by simp [h])
        · rw [if_neg hm] at hp
          rcases ih (c0 :: cur) false p hp c hc with h | h
          · simp at h
            rcases h with h | h
            · exact Or.inr (by simp [h])
            · exact Or.inl h
          · exact Or.inr (by simp [h])

theorem splitOnStrFuel_chars (sep : Str) :
    ∀ (fuel : Nat) (s : Str), ∀ p ∈ splitOnStrFuel sep fuel s, ∀ c ∈ p, c ∈ s := by
  intro fuel
  induction fuel with
  | zero =>
      intro s p hp c hc
      simp [splitOnStrFuel] at hp
      subst hp
      exact hc
  | succ fuel ih =>
      intro s p hp c hc
      unfold splitOnStrFuel at hp
      cases hfind : pyFindIdx sep s with
      | none =>
          rw [hfind] at hp
          simp at hp
          subst hp
          exact hc
      | some i =>
          rw [hfind] at hp
          rcases List.mem_cons.mp hp with hp | hp
          · subst hp
            exact (List.take_sublist i s).subset hc
          · exact (List.drop_sublist (i + sep.length) s).subset (ih _ p hp c hc)

theorem paragraph_parts_nil (text : Str) (h : ∀ c ∈ text, isSpace c) :
    paragraph_parts text = [] := by
  unfold paragraph_parts
  rw [List.filter_eq_nil_iff]
  intro a ha
  rcases List.mem_map.mp ha with ⟨p, hp, hstrip⟩
  simp only [ne_eq, decide_not, Bool.not_eq_true', decide_eq_false_iff_not,
    Decidable.not_not]
  rw [← hstrip, strip_eq_nil_iff]
  intro c hc
  rcases splitNNAux_chars text [] p hp c hc with hcc | hcc
  · simp at hcc
  · exact h c hcc

theorem sentence_parts_nil (text : Str) (h : ∀ c ∈ text, isSpace c) :
    sentence_parts text = [] := by
  unfold sentence_parts
  rw [List.filter_eq_nil_iff]
  intro a ha
  rcases List.mem_map.mp ha with ⟨p, hp, hstrip⟩
  simp only [ne_eq, decide_not, Bool.not_eq_true', decide_eq_false_iff_not,
    Decidable.not_not]
  rw [← hstrip, strip_eq_nil_iff]
  intro c hc
  rcases sentAux_chars text [] false p hp c hc with hcc | hcc
  · simp at hcc
  · exact h c hcc

theorem custom_parts_nil (d text : Str) (h : ∀ c ∈ text, isSpace c) :
    custom_parts d text = [] := by
  unfold custom_parts
  rw [List.filter_eq_nil_iff]
  intro a ha
  rcases List.mem_map.mp ha with ⟨p, hp, hstrip⟩
  simp only [ne_eq, decide_not, Bool.not_eq_true', decide_eq_false_iff_not,
    Decidable.not_not]
  rw [← hstrip, strip_eq_nil_iff]
  intro c hc
  exact h c (splitOnStrFuel_chars d text.length text p hp c hc)

/-!  ## C2: chunk coverage of the generic combiner  -/

/-- The parts still "owned" by a combiner state: the texts of the emitted
chunks followed by the joined contents of the open buffer (if any). -/
def combJ (sep : Str) (st : CombState) : List Str :=
  st.chunks.map Chunk.text ++
    (if st.current_parts = [] then [] else [joinSep sep st.current_parts])

theorem comb_step_join (cfg : ChunkingConfig) (orig : Str) (f : Str → Nat)
    (sep : Str) (st : CombState) (p : Str) (rest : List Str) :
    joinSep sep (combJ sep (combStep cfg orig f sep st p) ++ rest) =
    joinSep sep (combJ sep st ++ p :: rest) := by
  unfold combStep combJ
  dsimp only
  by_cases hemit : cfg.max_tokens < st.current_tokens + f p ∧ st.current_parts ≠ []
  · rw [if_pos hemit]
    rw [if_neg (by simp), if_neg hemit.2]
    simp [List.append_assoc, joinSep]
  · rw [if_neg hemit]
    rw [if_neg (by simp)]
    by_cases hcur : st.current_parts = []
    · rw [if_pos hcur, hcur]
      simp [joinSep]
    · rw [if_neg hcur, joinSep_append_singleton sep p st.current_parts hcur]
      have h1 : (st.chunks.map Chunk.text ++
            [joinSep sep st.current_parts ++ sep ++ p]) ++ rest =
          st.chunks.map Chunk.text ++
            (joinSep sep st.current_parts ++ sep ++ p) :: rest := by
        simp
      have h2 : (st.chunks.map Chunk.text ++ [joinSep sep st.current_parts]) ++
            p :: rest =
          st.chunks.map Chunk.text ++ joinSep sep st.current_parts :: p :: rest := by
        simp
      rw [h1, h2]
      exact joinSep_regroup sep (joinSep sep st.current_parts) p
        (st.chunks.map Chunk.text) rest

theorem comb_fold_join (cfg : ChunkingConfig) (orig : Str) (f : Str → Nat)
    (sep : Str) :
    ∀ (parts : List Str) (st : CombState),
    joinSep sep (combJ sep (parts.foldl (combStep cfg orig f sep) st)) =
    joinSep sep (combJ sep st ++ parts) := by
  intro parts
  induction parts with
  | nil =>
      intro st
      rw [List.foldl_nil, List.append_nil]
  | cons p ps ih =>
      intro st
      rw [List.foldl_cons, ih, comb_step_join]

theorem combine_map_text (cfg : ChunkingConfig) (parts : List Str)
    (orig : Str) (f : Str → Nat) (sep : Str) :
    (combine_into_chunks cfg parts orig f sep).map Chunk.text =
    combJ sep (parts.foldl (combStep cfg orig f sep) ⟨[], [], 0, 0⟩) := by
  unfold combine_into_chunks combJ
  by_cases h : (parts.foldl (combStep cfg orig f sep) ⟨[], [], 0, 0⟩).current_parts = []
  · simp [h]
  · simp [h]

theorem combine_join (cfg : ChunkingConfig) (parts : List Str)
    (orig : Str) (f : Str → Nat) (sep : Str) :
    joinSep sep ((combine_into_chunks cfg parts orig f sep).map Chunk.text) =
    joinSep sep parts := by
  rw [combine_map_text, comb_fold_join]
  simp [combJ]

/-- C2 counterexample: on input `"a \n\nb"` (paragraph method, default
budget, no oversized part) the single returned chunk is `"a\n\nb"`:
joining the chunks with `"\n\n"` does not reproduce the input — the space
stripped from the first paragraph is lost. -/
theorem C2_chunk_coverage_cx :
    joinSep (("\n\n").data)
      ((chunk_text { method := ("paragraph").data } (("a \n\nb").data)
        estimate_tokens).map Chunk.text) = ("a\n\nb").data ∧
    ("a\n\nb").data ≠ ("a \n\nb").data := by
  exact ⟨by decide, by decide⟩

/-- C2 (amended): for methods paragraph, sentence and custom (with a
non-empty delimiter), joining the texts of all returned chunks with the
method's separator reproduces the separator-join of the method's parts —
the non-empty stripped pieces of the input — exactly; it reproduces the
input itself only when the input equals that normal form (empty pieces
and piece-edge whitespace are dropped by the part computation before any
chunking). -/
theorem C2_chunk_coverage (cfg : ChunkingConfig) (text : Str) (f : Str → Nat) :
    (cfg.method = ("paragraph").data →
      joinSep (("\n\n").data) ((chunk_text cfg text f).map Chunk.text) =
      joinSep (("\n\n").data) (paragraph_parts text)) ∧
    (cfg.method = ("sentence").data →
      joinSep ((" ").data) ((chunk_text cfg text f).map Chunk.text) =
      joinSep ((" ").data) (sentence_parts text)) ∧
    (∀ d, cfg.method = ("custom").data → cfg.custom_delimiter = some d →
      d ≠ [] →
      joinSep d ((chunk_text cfg text f).map Chunk.text) =
      joinSep d (custom_parts d text)) := by
  refine ⟨?_, ?_, ?_⟩
  · intro hm
    unfold chunk_text
    by_cases hempty : strip text = []
    · rw [if_pos hempty,
        paragraph_parts_nil text ((strip_eq_nil_iff text).mp hempty)]
      rfl
    · rw [if_neg hempty, if_pos hm]
      exact combine_join cfg (paragraph_parts text) text f (("\n\n").data)
  · intro hm
    unfold chunk_text
    by_cases hempty : strip text = []
    · rw [if_pos hempty,
        sentence_parts_nil text ((strip_eq_nil_iff text).mp hempty)]
      rfl
    · rw [if_neg hempty, hm, if_neg (by decide), if_pos rfl]
      exact combine_join cfg (sentence_parts text) text f ((" ").data)
  · intro d hm hd hdne
    unfold chunk_text
    by_cases hempty : strip text = []
    · rw [if_pos hempty,
        custom_parts_nil d text ((strip_eq_nil_iff text).mp hempty)]
      rfl
    · rw [if_neg hempty, hm, if_neg (by decide), if_neg (by decide), if_pos rfl]
      unfold chunk_by_custom_delimiter
      rw [hd]
      dsimp only
      rw [if_neg hdne]
      exact combine_join cfg (custom_parts d text) text f d

/-- C2 witness: the amended paragraph-arm at a concrete input whose
normal form differs from the raw input. -/
theorem C2_chunk_coverage_witness :
    joinSep (("\n\n").data)
      ((chunk_text { method := ("paragraph").data } (("a \n\nb").data)
        estimate_tokens).map Chunk.text) =
    joinSep (("\n\n").data) (paragraph_parts (("a \n\nb").data)) :=
  (C2_chunk_coverage { method := ("paragraph").data } (("a \n\nb").data)
    estimate_tokens).1 rfl

/-!  ## C9: non-empty chunk invariants  -/

/-- A string with at least one non-whitespace character. -/
def hasInk (p : Str) : Prop := ∃ c ∈ p, isSpace c = false

theorem dropWhile_head_not (p : Char → Bool) :
    ∀ (l : Str) (x : Char) (xs : Str), l.dropWhile p = x :: xs → p x = false := by
  intro l
  induction l with
  | nil => intro x xs h; simp at h
  | cons a as ih =>
      intro x xs h
      rw [List.dropWhile_cons] at h
      by_cases hpa : p a = true
      · rw [if_pos hpa] at h
        exact ih x xs h
      · rw [if_neg hpa] at h
        cases h
        simpa using hpa

theorem strip_hasInk (q : Str) (h : strip q ≠ []) : hasInk (strip q) := by
  rcases hx : strip q with _ | ⟨x, xs⟩
  · exact absurd hx h
  · refine ⟨x, by simp, ?_⟩
    have : (rstrip q).dropWhile isSpace = x :: xs := hx
    exact dropWhile_head_not isSpace (rstrip q) x xs this

theorem stripped_parts_hasInk (ls : List Str) :
    ∀ p ∈ (ls.map strip).filter (· ≠ []), hasInk p := by
  intro p hp
  rcases List.mem_filter.mp hp with ⟨hmem, hne⟩
  rcases List.mem_map.mp hmem with ⟨q, _, hq⟩
  subst hq
  refine strip_hasInk q ?_
  simpa using hne

theorem joinSep_hasInk (sep : Str) (ls : List Str) (p : Str) (hp : p ∈ ls)
    (h : hasInk p) : hasInk (joinSep sep ls) := by
  rcases h with ⟨c, hc, hcs⟩
  exact ⟨c, mem_joinSep sep ls p hp c hc, hcs⟩

/-- Quality of a chunk: its text has at least one non-whitespace character. -/
def chunkInk (ch : Chunk) : Prop := hasInk ch.text

theorem combStep_hasInk (cfg : ChunkingConfig) (orig : Str) (f : Str → Nat)
    (sep : Str) (st : CombState) (p : Str) (hp : hasInk p)
    (hcur : ∀ q ∈ st.current_parts, hasInk q)
    (hch : ∀ ch ∈ st.chunks, chunkInk ch) :
    (∀ q ∈ (combStep cfg orig f sep st p).current_parts, hasInk q) ∧
    (∀ ch ∈ (combStep cfg orig f sep st p).chunks, chunkInk ch) := by
  unfold combStep
  dsimp only
  by_cases hemit : cfg.max_tokens < st.current_tokens + f p ∧ st.current_parts ≠ []
  · rw [if_pos hemit]
    constructor
    · intro q hq
      simp at hq
      subst hq
      exact hp
    · intro ch hc
      rcases List.mem_append.mp hc with hc | hc
      · exact hch ch hc
      · simp at hc
        subst hc
        rcases List.exists_mem_of_ne_nil st.current_parts hemit.2 with ⟨q0, hq0⟩
        exact joinSep_hasInk sep st.current_parts q0 hq0 (hcur q0 hq0)
  · rw [if_neg hemit]
    constructor
    · intro q hq
      rcases List.mem_append.mp hq with hq | hq
      · exact hcur q hq
      · simp at hq
        subst hq
        exact hp
    · exact hch


theorem comb_fold_hasInk (cfg : ChunkingConfig) (orig : Str) (f : Str → Nat)
    (sep : Str) :
    ∀ (parts : List Str) (st : CombState),
    (∀ p ∈ parts, hasInk p) →
    (∀ q ∈ st.current_parts, hasInk q) →
    (∀ ch ∈ st.chunks, chunkInk ch) →
    (∀ q ∈ (parts.foldl (combStep cfg orig f sep) st).current_parts, hasInk q) ∧
    (∀ ch ∈ (parts.foldl (combStep cfg orig f sep) st).chunks, chunkInk ch) := by
  intro parts
  induction parts with
  | nil =>
      intro st _ hcur hch
      exact ⟨hcur, hch⟩
  | cons p ps ih =>
      intro st hparts hcur hch
      rw [List.foldl_cons]
      have hstep := combStep_hasInk cfg orig f sep st p
        (hparts p (by simp)) hcur hch
      exact ih _ (fun q hq => hparts q (by simp [hq])) hstep.1 hstep.2

theorem combine_hasInk (cfg : ChunkingConfig) (parts : List Str)
    (orig : Str) (f : Str → Nat) (sep : Str)
    (hparts : ∀ p ∈ parts, hasInk p) :
    ∀ ch ∈ combine_into_chunks cfg parts orig f sep, chunkInk ch := by
  intro ch hc
  have hfold := comb_fold_hasInk cfg orig f sep parts ⟨[], [], 0, 0⟩ hparts
    (by intro q hq; simp at hq) (by intro c hc2; simp at hc2)
  unfold combine_into_chunks at hc
  by_cases hcur : (parts.foldl (combStep cfg orig f sep) ⟨[], [], 0, 0⟩).current_parts = []
  · rw [if_neg (by simpa using hcur)] at hc
    exact hfold.2 ch hc
  · rw [if_pos (by simpa using hcur)] at hc
    rcases List.mem_append.mp hc with hc | hc
    · exact hfold.2 ch hc
    · simp at hc
      subst hc
      rcases List.exists_mem_of_ne_nil _ hcur with ⟨q0, hq0⟩
      exact joinSep_hasInk sep _ q0 hq0 (hfold.1 q0 hq0)

theorem foldl_comb_cur_ne_nil (cfg : ChunkingConfig) (orig : Str)
    (f : Str → Nat) (sep : Str) :
    ∀ (parts : List Str) (st : CombState) (p : Str),
    ((p :: parts).foldl (combStep cfg orig f sep) st).current_parts ≠ [] := by
  intro parts
  induction parts with
  | nil =>
      intro st p
      rw [List.foldl_cons, List.foldl_nil]
      unfold combStep
      dsimp only
      simp
  | cons q qs ih =>
      intro st p
      rw [List.foldl_cons]
      exact ih (combStep cfg orig f sep st p) q

theorem combine_ne_nil (cfg : ChunkingConfig) (parts : List Str)
    (orig : Str) (f : Str → Nat) (sep : Str) (h : parts ≠ []) :
    combine_into_chunks cfg parts orig f sep ≠ [] := by
  rcases parts with _ | ⟨p, ps⟩
  · exact absurd rfl h
  · unfold combine_into_chunks
    rw [if_pos (by simpa using foldl_comb_cur_ne_nil cfg orig f sep ps ⟨[], [], 0, 0⟩ p)]
    simp

theorem splitWSAux_good :
    ∀ (s cur : Str), (∀ c ∈ cur, isSpace c = false) →
    ∀ p ∈ splitWSAux s cur, p ≠ [] ∧ ∀ c ∈ p, isSpace c = false := by
  intro s
  induction s with
  | nil =>
      intro cur hcur p hp
      unfold splitWSAux at hp
      by_cases hc : cur = []
      · rw [if_pos hc] at hp
        simp at hp
      · rw [if_neg hc] at hp
        simp at hp
        subst hp
        refine ⟨by simpa using hc, ?_⟩
        intro c hcm
        exact hcur c (List.mem_reverse.mp hcm)
  | cons c0 rest ih =>
      intro cur hcur p hp
      unfold splitWSAux at hp
      by_cases hsp : isSpace c0 = true
      · rw [if_pos hsp] at hp
        by_cases hc : cur = []
        · rw [if_pos hc] at hp
          exact ih [] (by simp) p hp
        · rw [if_neg hc] at hp
          rcases List.mem_cons.mp hp with hp | hp
          · subst hp
            refine ⟨by simpa using hc, ?_⟩
            intro c hcm
            exact hcur c (List.mem_reverse.mp hcm)
          · exact ih [] (by simp) p hp
      · rw [if_neg hsp] at hp
        refine ih (c0 :: cur) ?_ p hp
        intro c hcm
        rcases List.mem_cons.mp hcm with hcm | hcm
        · subst hcm
          simpa using hsp
        · exact hcur c hcm

theorem splitWS_good (s : Str) :
    ∀ p ∈ splitWS s, p ≠ [] ∧ ∀ c ∈ p, isSpace c = false :=
  splitWSAux_good s [] (by simp)

theorem good_hasInk (p : Str) (h : p ≠ [] ∧ ∀ c ∈ p, isSpace c = false) :
    hasInk p := by
  rcases p with _ | ⟨x, xs⟩
  · exact absurd rfl h.1
  · exact ⟨x, by simp, h.2 x (by simp)⟩

theorem overlapAux_mem (f : Str → Nat) (k : Nat) :
    ∀ (l acc : List Str) (ot : Nat) (q : Str),
    q ∈ overlapAux f k l acc ot → q ∈ l ∨ q ∈ acc := by
  intro l
  induction l with
  | nil =>
      intro acc ot q hq
      simp [overlapAux] at hq
      exact Or.inr hq
  | cons w rest ih =>
      intro acc ot q hq
      unfold overlapAux at hq
      by_cases hfit : ot + f w ≤ k
      · rw [if_pos hfit] at hq
        rcases ih (w :: acc) (ot + f w) q hq with h | h
        · exact Or.inl (by simp [h])
        · rcases List.mem_cons.mp h with h | h
          · exact Or.inl (by simp [h])
          · exact Or.inr h
      · rw [if_neg hfit] at hq
        exact Or.inr hq

theorem get_overlap_words_mem (f : Str → Nat) (k : Nat) (words : List Str)
    (q : Str) (hq : q ∈ get_overlap_words f k words) : q ∈ words := by
  unfold get_overlap_words at hq
  rcases overlapAux_mem f k words.reverse [] 0 q hq with h | h
  · exact List.mem_reverse.mp h
  · simp at h

theorem taStep_hasInk (cfg : ChunkingConfig) (f : Str → Nat) (st : TAState)
    (word : Str) (hw : hasInk word)
    (hcur : ∀ q ∈ st.current_chunk_words, hasInk q)
    (hch : ∀ ch ∈ st.chunks, chunkInk ch) :
    (∀ q ∈ (taStep cfg f st word).current_chunk_words, hasInk q) ∧
    (∀ ch ∈ (taStep cfg f st word).chunks, chunkInk ch) := by
  unfold taStep
  dsimp only
  by_cases hemit : cfg.max_tokens < st.current_tokens + f word ∧
      st.current_chunk_words ≠ []
  · rw [if_pos hemit]
    have hnewchunk : ∀ ch ∈ st.chunks ++
        [⟨joinSep ((" ").data) st.current_chunk_words, st.current_tokens,
          st.text_position - (joinSep ((" ").data) st.current_chunk_words).length,
          st.text_position, st.chunk_index⟩], chunkInk ch := by
      intro ch hc
      rcases List.mem_append.mp hc with hc | hc
      · exact hch ch hc
      · simp at hc
        subst hc
        rcases List.exists_mem_of_ne_nil st.current_chunk_words hemit.2 with ⟨q0, hq0⟩
        exact joinSep_hasInk ((" ").data) st.current_chunk_words q0 hq0 (hcur q0 hq0)
    by_cases hov : 0 < cfg.overlap_tokens
    · rw [if_pos hov]
      refine ⟨?_, hnewchunk⟩
      intro q hq
      rcases List.mem_append.mp hq with hq | hq
      · exact hcur q (get_overlap_words_mem f cfg.overlap_tokens _ q hq)
      · simp at hq
        subst hq
        exact hw
    · rw [if_neg hov]
      refine ⟨?_, hnewchunk⟩
      intro q hq
      simp at hq
      subst hq
      exact hw
  · rw [if_neg hemit]
    refine ⟨?_, hch⟩
    intro q hq
    rcases List.mem_append.mp hq with hq | hq
    · exact hcur q hq
    · simp at hq
      subst hq
      exact hw

theorem ta_fold_hasInk (cfg : ChunkingConfig) (f : Str → Nat) :
    ∀ (words : List Str) (st : TAState),
    (∀ w ∈ words, hasInk w) →
    (∀ q ∈ st.current_chunk_words, hasInk q) →
    (∀ ch ∈ st.chunks, chunkInk ch) →
    (∀ q ∈ (words.foldl (taStep cfg f) st).current_chunk_words, hasInk q) ∧
    (∀ ch ∈ (words.foldl (taStep cfg f) st).chunks, chunkInk ch) := by
  intro words
  induction words with
  | nil =>
      intro st _ hcur hch
      exact ⟨hcur, hch⟩
  | cons w ws ih =>
      intro st hwords hcur hch
      rw [List.foldl_cons]
      have hstep := taStep_hasInk cfg f st w (hwords w (by simp)) hcur hch
      exact ih _ (fun q hq => hwords q (by simp [hq])) hstep.1 hstep.2

theorem token_hasInk (cfg : ChunkingConfig) (text : Str) (f : Str → Nat) :
    ∀ ch ∈ chunk_token_aware cfg text f, chunkInk ch := by
  intro ch hc
  have hgood : ∀ w ∈ splitWS text, hasInk w :=
    fun w hw => good_hasInk w (splitWS_good text w hw)
  have hfold := ta_fold_hasInk cfg f (splitWS text) ⟨[], [], 0, 0, 0⟩ hgood
    (by intro q hq; simp at hq) (by intro c hc2; simp at hc2)
  unfold chunk_token_aware at hc
  by_cases hcur : ((splitWS text).foldl (taStep cfg f) ⟨[], [], 0, 0, 0⟩).current_chunk_words = []
  · rw [if_neg (by simpa using hcur)] at hc
    exact hfold.2 ch hc
  · rw [if_pos (by simpa using hcur)] at hc
    rcases List.mem_append.mp hc with hc | hc
    · exact hfold.2 ch hc
    · simp at hc
      subst hc
      rcases List.exists_mem_of_ne_nil _ hcur with ⟨q0, hq0⟩
      exact joinSep_hasInk ((" ").data) _ q0 hq0 (hfold.1 q0 hq0)

theorem foldl_ta_cur_ne_nil (cfg : ChunkingConfig) (f : Str → Nat) :
    ∀ (words : List Str) (st : TAState) (w : Str),
    ((w :: words).foldl (taStep cfg f) st).current_chunk_words ≠ [] := by
  intro words
  induction words with
  | nil =>
      intro st w
      rw [List.foldl_cons, List.foldl_nil]
      unfold taStep
      dsimp only
      simp
  | cons q qs ih =>
      intro st w
      rw [List.foldl_cons]
      exact ih (taStep cfg f st w) q

theorem token_ne_nil (cfg : ChunkingConfig) (text : Str) (f : Str → Nat)
    (h : splitWS text ≠ []) : chunk_token_aware cfg text f ≠ [] := by
  rcases hw : splitWS text with _ | ⟨w, ws⟩
  · exact absurd hw h
  · unfold chunk_token_aware
    rw [hw]
    rw [if_pos (by simpa using foldl_ta_cur_ne_nil cfg f ws ⟨[], [], 0, 0, 0⟩ w)]
    simp

theorem splitNNAux_cover :
    ∀ (s cur : Str) (c : Char), (c ∈ cur ∨ c ∈ s) →
    (∃ p ∈ splitNNAux s cur, c ∈ p) ∨ c = '\n' := by
  intro s cur
  induction s, cur using splitNNAux.induct with
  | case1 cur =>
      intro c hc
      rcases hc with hc | hc
      · exact Or.inl ⟨cur.reverse, by simp [splitNNAux], by simpa using hc⟩
      · simp at hc
  | case2 c0 cur =>
      intro c hc
      refine Or.inl ⟨(c0 :: cur).reverse, by simp [splitNNAux], ?_⟩
      simp at hc ⊢
      tauto
  | case3 c0 d rest cur h ih =>
      intro c hc
      rw [splitNNAux, if_pos h]
      rcases hc with hc | hc
      · exact Or.inl ⟨cur.reverse, by simp, by simpa using hc⟩
      · rcases List.mem_cons.mp hc with hc | hc
        · exact Or.inr (by rw [hc, h.1])
        · rcases List.mem_cons.mp hc with hc | hc
          · exact Or.inr (by rw [hc, h.2])
          · rcases ih c (Or.inr hc) with ⟨p, hp, hcp⟩ | hc2
            · exact Or.inl ⟨p, by simp [hp], hcp⟩
            · exact Or.inr hc2
  | case4 c0 d rest cur h ih =>
      intro c hc
      rw [splitNNAux, if_neg h]
      rcases hc with hc | hc
      · exact ih c (Or.inl (by simp [hc]))
      · rcases List.mem_cons.mp hc with hc | hc
        · exact ih c (Or.inl (by simp [hc]))
        · exact ih c (Or.inr hc)

theorem sentAux_cover :
    ∀ (s cur : Str) (b : Bool) (c : Char), (b = true → cur = []) →
    (c ∈ cur ∨ c ∈ s) →
    (∃ p ∈ sentAux s cur b, c ∈ p) ∨ isSpace c = true := by
  intro s
  induction s with
  | nil =>
      intro cur b c _ hc
      rcases hc with hc | hc
      · exact Or.inl ⟨cur.reverse, by simp [sentAux], by simpa using hc⟩
      · simp at hc
  | cons c0 rest ih =>
      intro cur b c hb hc
      unfold sentAux
      by_cases hbt : b = true
      · rw [if_pos hbt]
        have hcur : cur = [] := hb hbt
        subst hcur
        by_cases hsp : isSpace c0 = true
        · rw [if_pos hsp]
          rcases hc with hc | hc
          · simp at hc
          · rcases List.mem_cons.mp hc with hc | hc
            · exact Or.inr (by rw [hc]; exact hsp)
            · exact ih [] true c (fun _ => rfl) (Or.inr hc)
        · rw [if_neg hsp]
          rcases hc with hc | hc
          · simp at hc
          · rcases List.mem_cons.mp hc with hc | hc
            · exact ih [c0] false c (by simp) (Or.inl (by simp [hc]))
            · exact ih [c0] false c (by simp) (Or.inr hc)
      · rw [if_neg hbt]
        by_cases hm : (isSpace c0 && headIsSentEnd cur) = true
        · rw [if_pos hm]
          rcases hc with hc | hc
          · exact Or.inl ⟨cur.reverse, by simp, by simpa using hc⟩
          · rcases List.mem_cons.mp hc with hc | hc
            · refine Or.inr ?_
              rw [hc]
              rw [Bool.and_eq_true] at hm
              exact hm.1
            · rcases ih [] true c (fun _ => rfl) (Or.inr hc) with ⟨p, hp, hcp⟩ | h2
              · exact Or.inl ⟨p, by simp [hp], hcp⟩
              · exact Or.inr h2
        · rw [if_neg hm]
          rcases hc with hc | hc
          · exact ih (c0 :: cur) false c (by simp) (Or.inl (by simp [hc]))
          · rcases List.mem_cons.mp hc with hc | hc
            · exact ih (c0 :: cur) false c (by simp) (Or.inl (by simp [hc]))
            · exact ih (c0 :: cur) false c (by simp) (Or.inr hc)

theorem paragraph_parts_ne_nil (text : Str) (c : Char) (hc : c ∈ text)
    (hns : isSpace c = false) : paragraph_parts text ≠ [] := by
  rcases splitNNAux_cover text [] c (Or.inr hc) with ⟨p, hp, hcp⟩ | hnl
  · have hs : strip p ≠ [] := by
      intro hstrip
      rw [strip_eq_nil_iff] at hstrip
      rw [hstrip c hcp] at hns
      cases hns
    refine List.ne_nil_of_mem (a := strip p) ?_
    unfold paragraph_parts
    rw [List.mem_filter]
    exact ⟨List.mem_map.mpr ⟨p, hp, rfl⟩, by simpa using hs⟩
  · rw [hnl] at hns
    simp [isSpace] at hns

theorem sentence_parts_ne_nil (text : Str) (c : Char) (hc : c ∈ text)
    (hns : isSpace c = false) : sentence_parts text ≠ [] := by
  rcases sentAux_cover text [] false c (by simp) (Or.inr hc) with ⟨p, hp, hcp⟩ | hsp
  · have hs : strip p ≠ [] := by
      intro hstrip
      rw [strip_eq_nil_iff] at hstrip
      rw [hstrip c hcp] at hns
      cases hns
    refine List.ne_nil_of_mem (a := strip p) ?_
    unfold sentence_parts
    rw [List.mem_filter]
    exact ⟨List.mem_map.mpr ⟨p, hp, rfl⟩, by simpa using hs⟩
  · rw [hsp] at hns
    cases hns

/-- C9 counterexample: the input `"||"` has non-whitespace characters and
passes the whitespace-only guard, but with method custom and delimiter
`"||"` every split piece strips to empty, so `chunk_text` returns the
empty list — refuting the claimed "non-empty iff some non-whitespace
character" equivalence for the custom method. -/
theorem C9_nonempty_cx :
    (∃ c ∈ ("||").data, isSpace c = false) ∧
    chunk_text { method := ("custom").data
                 custom_delimiter := some (("||").data) } (("||").data)
      estimate_tokens = [] := by
  exact ⟨by decide, by decide⟩

/-- C9 (amended): `chunk_text` returns the empty list on whitespace-only
input for every configuration; for methods paragraph, sentence and
token_aware the returned list is non-empty iff the input has a
non-whitespace character (for custom this fails when all content lies in
delimiter occurrences); and every returned chunk's text contains at least
one non-whitespace character, for every configuration. -/
theorem C9_chunk_nonempty (cfg : ChunkingConfig) (text : Str) (f : Str → Nat) :
    ((∀ c ∈ text, isSpace c = true) → chunk_text cfg text f = []) ∧
    (cfg.method ∈ [("paragraph").data, ("sentence").data, ("token_aware").data] →
      (chunk_text cfg text f ≠ [] ↔ ∃ c ∈ text, isSpace c = false)) ∧
    (∀ ch ∈ chunk_text cfg text f, hasInk ch.text) := by
  refine ⟨?_, ?_, ?_⟩
  · intro hall
    unfold chunk_text
    rw [if_pos ((strip_eq_nil_iff text).mpr hall)]
  · intro hmeth
    constructor
    · intro hne
      by_contra hno
      push_neg at hno
      have hall : ∀ c ∈ text, isSpace c = true := by
        intro c hc
        have := hno c hc
        revert this
        cases isSpace c <;> simp
      exact hne (by
        unfold chunk_text
        rw [if_pos ((strip_eq_nil_iff text).mpr hall)])
    · rintro ⟨c, hc, hcs⟩
      have hguard : ¬ strip text = [] := by
        intro h
        rw [strip_eq_nil_iff] at h
        rw [h c hc] at hcs
        cases hcs
      unfold chunk_text
      rw [if_neg hguard]
      simp only [List.mem_cons] at hmeth
      rcases hmeth with hm | hm | hm | hm
      · rw [if_pos hm]
        exact combine_ne_nil cfg (paragraph_parts text) text f _
          (paragraph_parts_ne_nil text c hc hcs)
      · rw [hm, if_neg (by decide), if_pos rfl]
        exact combine_ne_nil cfg (sentence_parts text) text f _
          (sentence_parts_ne_nil text c hc hcs)
      · rw [hm, if_neg (by decide), if_neg (by decide), if_neg (by decide),
          if_pos rfl]
        refine token_ne_nil cfg text f ?_
        intro hws
        rw [splitWS_eq_nil] at hws
        rw [hws c hc] at hcs
        cases hcs
      · simp at hm
  · intro ch hc
    unfold chunk_text at hc
    by_cases hguard : strip text = []
    · rw [if_pos hguard] at hc
      simp at hc
    · rw [if_neg hguard] at hc
      by_cases h1 : cfg.method = ("paragraph").data
      · rw [if_pos h1] at hc
        exact combine_hasInk cfg _ text f _ (stripped_parts_hasInk _) ch hc
      · rw [if_neg h1] at hc
        by_cases h2 : cfg.method = ("sentence").data
        · rw [if_pos h2] at hc
          exact combine_hasInk cfg _ text f _ (stripped_parts_hasInk _) ch hc
        · rw [if_neg h2] at hc
          by_cases h3 : cfg.method = ("custom").data
          · rw [if_pos h3] at hc
            unfold chunk_by_custom_delimiter at hc
            rcases hdel : cfg.custom_delimiter with _ | d
            · rw [hdel] at hc
              exact combine_hasInk cfg _ text f _ (stripped_parts_hasInk _) ch hc
            · rw [hdel] at hc
              dsimp only at hc
              by_cases hd : d = []
              · rw [if_pos hd] at hc
                exact combine_hasInk cfg _ text f _ (stripped_parts_hasInk _) ch hc
              · rw [if_neg hd] at hc
                exact combine_hasInk cfg _ text f _ (stripped_parts_hasInk _) ch hc
          · rw [if_neg h3] at hc
            by_cases h4 : cfg.method = ("token_aware").data
            · rw [if_pos h4] at hc
              exact token_hasInk cfg text f ch hc
            · rw [if_neg h4] at hc
              exact combine_hasInk cfg _ text f _ (stripped_parts_hasInk _) ch hc

/-- C9 witness: the amended equivalence applied at the paragraph method on
the concrete input `"hi"`. -/
theorem C9_chunk_nonempty_witness :
    chunk_text { method := ("paragraph").data } (("hi").data)
      estimate_tokens ≠ [] :=
  ((C9_chunk_nonempty { method := ("paragraph").data } (("hi").data)
    estimate_tokens).2.1 (by decide)).mpr ⟨'h', by decide, by decide⟩

/-!  ## C4: token budget of token-aware chunking  -/

/-- Largest estimated token count of any single word in `ws` (0 if none):
"the tokens of one word of the input". -/
def maxWordTokens (f : Str → Nat) (ws : List Str) : Nat :=
  (ws.map f).foldr max 0

theorem le_maxWordTokens (f : Str → Nat) (ws : List Str) (w : Str)
    (hw : w ∈ ws) : f w ≤ maxWordTokens f ws := by
  unfold maxWordTokens
  induction ws with
  | nil => simp at hw
  | cons a as ih =>
      rcases List.mem_cons.mp hw with h | h
      · subst h
        exact le_max_left _ _
      · exact le_trans (ih h) (le_max_right _ _)

theorem overlapAux_sum (f : Str → Nat) (k : Nat) :
    ∀ (l acc : List Str) (ot : Nat),
    ((acc.map f).sum = ot) → ot ≤ k →
    (((overlapAux f k l acc ot).map f).sum) ≤ k := by
  intro l
  induction l with
  | nil =>
      intro acc ot hsum hle
      simpa [overlapAux, hsum] using hle
  | cons w rest ih =>
      intro acc ot hsum hle
      unfold overlapAux
      by_cases hfit : ot + f w ≤ k
      · rw [if_pos hfit]
        refine ih (w :: acc) (ot + f w) ?_ hfit
        simp [hsum]
        ring
      · rw [if_neg hfit]
        simpa [hsum] using hle

theorem get_overlap_words_sum (f : Str → Nat) (k : Nat) (words : List Str) :
    (((get_overlap_words f k words).map f).sum) ≤ k := by
  unfold get_overlap_words
  exact overlapAux_sum f k words.reverse [] 0 (by simp) (Nat.zero_le k)

theorem taStep_bound (cfg : ChunkingConfig) (f : Str → Nat) (M : Nat)
    (hk : cfg.overlap_tokens ≤ cfg.max_tokens) (st : TAState) (word : Str)
    (hw : f word ≤ M)
    (hnil : st.current_chunk_words = [] → st.current_tokens = 0)
    (hct : st.current_tokens ≤ cfg.max_tokens + M)
    (hch : ∀ ch ∈ st.chunks, ch.token_count ≤ cfg.max_tokens + M) :
    ((taStep cfg f st word).current_chunk_words = [] →
      (taStep cfg f st word).current_tokens = 0) ∧
    (taStep cfg f st word).current_tokens ≤ cfg.max_tokens + M ∧
    (∀ ch ∈ (taStep cfg f st word).chunks,
      ch.token_count ≤ cfg.max_tokens + M) := by
  unfold taStep
  dsimp only
  by_cases hemit : cfg.max_tokens < st.current_tokens + f word ∧
      st.current_chunk_words ≠ []
  · rw [if_pos hemit]
    have hchunks : ∀ ch ∈ st.chunks ++
        [⟨joinSep ((" ").data) st.current_chunk_words, st.current_tokens,
          st.text_position - (joinSep ((" ").data) st.current_chunk_words).length,
          st.text_position, st.chunk_index⟩],
        ch.token_count ≤ cfg.max_tokens + M := by
      intro ch hc
      rcases List.mem_append.mp hc with hc | hc
      · exact hch ch hc
      · simp at hc
        subst hc
        exact hct
    by_cases hov : 0 < cfg.overlap_tokens
    · rw [if_pos hov]
      refine ⟨by simp, ?_, hchunks⟩
      have hsum := get_overlap_words_sum f cfg.overlap_tokens
        st.current_chunk_words
      have : ((get_overlap_words f cfg.overlap_tokens
          st.current_chunk_words).map f).sum + f word ≤
          cfg.max_tokens + M :=
        le_trans (Nat.add_le_add (le_trans hsum hk) hw) (le_refl _)
      simpa using this
    · rw [if_neg hov]
      refine ⟨by simp, ?_, hchunks⟩
      simpa using le_trans hw (Nat.le_add_left M cfg.max_tokens)
  · rw [if_neg hemit]
    refine ⟨by simp, ?_, hch⟩
    rcases Decidable.not_and_iff_or_not.mp hemit with h | h
    · push_neg at h
      exact le_trans h (Nat.le_add_right cfg.max_tokens M)
    · have hcur : st.current_chunk_words = [] := by
        by_contra hc
        exact h hc
      rw [hnil hcur]
      simpa using le_trans hw (Nat.le_add_left M cfg.max_tokens)

theorem ta_fold_bound (cfg : ChunkingConfig) (f : Str → Nat) (M : Nat)
    (hk : cfg.overlap_tokens ≤ cfg.max_tokens) :
    ∀ (words : List Str) (st : TAState),
    (∀ w ∈ words, f w ≤ M) →
    (st.current_chunk_words = [] → st.current_tokens = 0) →
    st.current_tokens ≤ cfg.max_tokens + M →
    (∀ ch ∈ st.chunks, ch.token_count ≤ cfg.max_tokens + M) →
    ((words.foldl (taStep cfg f) st).current_chunk_words = [] →
      (words.foldl (taStep cfg f) st).current_tokens = 0) ∧
    (words.foldl (taStep cfg f) st).current_tokens ≤ cfg.max_tokens + M ∧
    (∀ ch ∈ (words.foldl (taStep cfg f) st).chunks,
      ch.token_count ≤ cfg.max_tokens + M) := by
  intro words
  induction words with
  | nil =>
      intro st _ hnil hct hch
      exact ⟨hnil, hct, hch⟩
  | cons w ws ih =>
      intro st hwords hnil hct hch
      rw [List.foldl_cons]
      have hstep := taStep_bound cfg f M hk st w (hwords w (by simp)) hnil hct hch
      exact ih _ (fun q hq => hwords q (by simp [hq])) hstep.1 hstep.2.1 hstep.2.2

/-- C4 counterexample: with `overlap_tokens = 100 > max_tokens = 2` and a
unit-cost estimator on six words, the overlap re-seeds each next chunk
with the whole previous chunk, so token counts grow without bound: some
chunk has `token_count = 4 > max_tokens + (tokens of one word) = 3`. -/
theorem C4_token_budget_cx :
    (∀ w ∈ splitWS (("a b c d e f").data), (fun (_ : Str) => 1) w = 1) ∧
    (∃ ch ∈ chunk_text { method := ("token_aware").data
                         max_tokens := 2
                         overlap_tokens := 100 } (("a b c d e f").data)
        (fun _ => 1), 2 + 1 < ch.token_count) := by
  exact ⟨by decide, by decide⟩

/-- C4 (amended): in token_aware mode, provided `overlap_tokens ≤
max_tokens` (which the unamended claim lacks), every returned chunk's
`token_count` is at most `max_tokens` plus the largest estimated token
count of a single word of the input. -/
theorem C4_token_budget (cfg : ChunkingConfig) (text : Str) (f : Str → Nat)
    (hm : cfg.method = ("token_aware").data)
    (hk : cfg.overlap_tokens ≤ cfg.max_tokens) :
    ∀ ch ∈ chunk_text cfg text f,
      ch.token_count ≤ cfg.max_tokens + maxWordTokens f (splitWS text) := by
  intro ch hc
  unfold chunk_text at hc
  by_cases hguard : strip text = []
  · rw [if_pos hguard] at hc
    simp at hc
  · rw [if_neg hguard, hm, if_neg (by decide), if_neg (by decide),
      if_neg (by decide), if_pos rfl] at hc
    unfold chunk_token_aware at hc
    have hfold := ta_fold_bound cfg f (maxWordTokens f (splitWS text)) hk
      (splitWS text) ⟨[], [], 0, 0, 0⟩
      (fun w hw => le_maxWordTokens f (splitWS text) w hw)
      (by intro; rfl) (by simp) (by intro c hc2; simp at hc2)
    by_cases hcur : ((splitWS text).foldl (taStep cfg f)
        ⟨[], [], 0, 0, 0⟩).current_chunk_words = []
    · rw [if_neg (by simpa using hcur)] at hc
      exact hfold.2.2 ch hc
    · rw [if_pos (by simpa using hcur)] at hc
      rcases List.mem_append.mp hc with hc | hc
      · exact hfold.2.2 ch hc
      · simp at hc
        subst hc
        exact hfold.2.1

/-- C4 witness: the amended bound applied to a concrete chunk of a
concrete token-aware run with `overlap_tokens = 1 ≤ max_tokens = 2`. -/
theorem C4_token_budget_witness :
    (⟨("a b").data, 2, 1, 4, 0⟩ : Chunk).token_count ≤
      2 + maxWordTokens (fun _ => 1) (splitWS (("a b c").data)) :=
  C4_token_budget { method := ("token_aware").data
                    max_tokens := 2
                    overlap_tokens := 1 } (("a b c").data) (fun _ => 1)
    rfl (by decide) ⟨("a b").data, 2, 1, 4, 0⟩ (by decide)

/-!  ## C3: overlap correctness of token-aware chunking  -/

theorem splitWSAux_append (w : Str) :
    ∀ (r acc : Str), (∀ c ∈ w, isSpace c = false) →
    splitWSAux (w ++ r) acc = splitWSAux r (w.reverse ++ acc) := by
  induction w with
  | nil => intro r acc _; simp
  | cons c w' ih =>
      intro r acc hw
      have hc : isSpace c = false := hw c (by simp)
      rw [List.cons_append]
      have hstep : splitWSAux (c :: (w' ++ r)) acc = splitWSAux (w' ++ r) (c :: acc) := by
        conv_lhs => simp only [splitWSAux]
        rw [if_neg (by simp [hc])]
      rw [hstep, ih r (c :: acc) (fun c2 hc2 => hw c2 (by simp [hc2]))]
      congr 1
      simp

/-- Words with no whitespace characters and no empty word. -/
def goodWords (ws : List Str) : Prop :=
  ∀ w ∈ ws, w ≠ [] ∧ ∀ c ∈ w, isSpace c = false

theorem splitWS_joinSep (ws : List Str) (hws : goodWords ws) :
    splitWS (joinSep ((" ").data) ws) = ws := by
  induction ws with
  | nil => rfl
  | cons w ws2 ih =>
      cases ws2 with
      | nil =>
          show splitWS w = [w]
          unfold splitWS
          have h2 := splitWSAux_append w [] [] (hws w (by simp)).2
          simp only [List.append_nil] at h2
          rw [h2]
          unfold splitWSAux
          rw [if_neg (by simpa using (hws w (by simp)).1)]
          simp
      | cons w2 ws3 =>
          rw [joinSep_cons ((" ").data) w (w2 :: ws3) (by simp)]
          unfold splitWS
          rw [List.append_assoc,
            splitWSAux_append w (((" ").data) ++ joinSep ((" ").data) (w2 :: ws3))
              [] (hws w (by simp)).2]
          show splitWSAux (' ' :: joinSep ((" ").data) (w2 :: ws3))
            (w.reverse ++ []) = _
          unfold splitWSAux
          rw [if_pos (by decide), if_neg (by simpa using (hws w (by simp)).1)]
          have ihr := ih (fun q hq => hws q (by simp [hq]))
          unfold splitWS at ihr
          rw [ihr]
          simp

theorem overlapAux_take (f : Str → Nat) (k : Nat) :
    ∀ (l acc : List Str) (ot : Nat),
    ∃ m, overlapAux f k l acc ot = (l.take m).reverse ++ acc := by
  intro l
  induction l with
  | nil =>
      intro acc ot
      exact ⟨0, by simp [overlapAux]⟩
  | cons w rest ih =>
      intro acc ot
      unfold overlapAux
      by_cases hfit : ot + f w ≤ k
      · rw [if_pos hfit]
        rcases ih (w :: acc) (ot + f w) with ⟨m, hm⟩
        refine ⟨m + 1, ?_⟩
        rw [hm, List.take_succ_cons, List.reverse_cons, List.append_assoc]
        simp
      · rw [if_neg hfit]
        exact ⟨0, by simp⟩

theorem get_overlap_words_suffix (f : Str → Nat) (k : Nat) (ws : List Str) :
    ∃ pre, pre ++ get_overlap_words f k ws = ws := by
  unfold get_overlap_words
  rcases overlapAux_take f k ws.reverse [] 0 with ⟨m, hm⟩
  rw [hm]
  refine ⟨(ws.reverse.drop m).reverse, ?_⟩
  rw [List.append_nil, ← List.reverse_append, List.take_append_drop]
  exact List.reverse_reverse ws

/-- The overlap relation between consecutive token-aware chunks: the next
chunk's word list begins with the overlap words of the previous chunk. -/
def AdjRel (f : Str → Nat) (k : Nat) (a b : Chunk) : Prop :=
  ∃ rest, splitWS b.text = get_overlap_words f k (splitWS a.text) ++ rest

theorem taStep_adj (cfg : ChunkingConfig) (f : Str → Nat)
    (hk : 0 < cfg.overlap_tokens) (st : TAState) (word : Str)
    (hw : word ≠ [] ∧ ∀ c ∈ word, isSpace c = false)
    (hcur : goodWords st.current_chunk_words)
    (hchain : List.Chain' (AdjRel f cfg.overlap_tokens) st.chunks)
    (hlast : ∀ last, st.chunks.getLast? = some last →
      ∃ rest, st.current_chunk_words =
        get_overlap_words f cfg.overlap_tokens (splitWS last.text) ++ rest) :
    goodWords (taStep cfg f st word).current_chunk_words ∧
    List.Chain' (AdjRel f cfg.overlap_tokens) (taStep cfg f st word).chunks ∧
    (∀ last, (taStep cfg f st word).chunks.getLast? = some last →
      ∃ rest, (taStep cfg f st word).current_chunk_words =
        get_overlap_words f cfg.overlap_tokens (splitWS last.text) ++ rest) := by
  unfold taStep
  dsimp only
  by_cases hemit : cfg.max_tokens < st.current_tokens + f word ∧
      st.current_chunk_words ≠ []
  · rw [if_pos hemit, if_pos hk]
    dsimp only
    have hround : splitWS (joinSep ((" ").data) st.current_chunk_words) =
        st.current_chunk_words := splitWS_joinSep _ hcur
    refine ⟨?_, ?_, ?_⟩
    · intro q hq
      rcases List.mem_append.mp hq with hq | hq
      · exact hcur q (get_overlap_words_mem f cfg.overlap_tokens _ q hq)
      · simp at hq
        subst hq
        exact hw
    · rw [List.chain'_append]
      refine ⟨hchain, by simp, ?_⟩
      intro x hx y hy
      simp at hy
      subst hy
      rcases hlast x (by simpa using hx) with ⟨rest, hrest⟩
      exact ⟨rest, by rw [hround]; exact hrest⟩
    · intro last hlast2
      rw [List.getLast?_concat] at hlast2
      cases hlast2
      refine ⟨[word], ?_⟩
      rw [hround]
  · rw [if_neg hemit]
    refine ⟨?_, hchain, ?_⟩
    · intro q hq
      rcases List.mem_append.mp hq with hq | hq
      · exact hcur q hq
      · simp at hq
        subst hq
        exact hw
    · intro last hlast2
      rcases hlast last hlast2 with ⟨rest, hrest⟩
      exact ⟨rest ++ [word], by rw [hrest, List.append_assoc]⟩

theorem ta_fold_adj (cfg : ChunkingConfig) (f : Str → Nat)
    (hk : 0 < cfg.overlap_tokens) :
    ∀ (words : List Str) (st : TAState),
    goodWords words →
    goodWords st.current_chunk_words →
    List.Chain' (AdjRel f cfg.overlap_tokens) st.chunks →
    (∀ last, st.chunks.getLast? = some last →
      ∃ rest, st.current_chunk_words =
        get_overlap_words f cfg.overlap_tokens (splitWS last.text) ++ rest) →
    goodWords (words.foldl (taStep cfg f) st).current_chunk_words ∧
    List.Chain' (AdjRel f cfg.overlap_tokens)
      (words.foldl (taStep cfg f) st).chunks ∧
    (∀ last, (words.foldl (taStep cfg f) st).chunks.getLast? = some last →
      ∃ rest, (words.foldl (taStep cfg f) st).current_chunk_words =
        get_overlap_words f cfg.overlap_tokens (splitWS last.text) ++ rest) := by
  intro words
  induction words with
  | nil =>
      intro st _ hcur hchain hlast
      exact ⟨hcur, hchain, hlast⟩
  | cons w ws ih =>
      intro st hwords hcur hchain hlast
      rw [List.foldl_cons]
      have hstep := taStep_adj cfg f hk st w (hwords w (by simp)) hcur hchain hlast
      exact ih _ (fun q hq => hwords q (by simp [hq])) hstep.1 hstep.2.1 hstep.2.2

theorem token_chain (cfg : ChunkingConfig) (text : Str) (f : Str → Nat)
    (hk : 0 < cfg.overlap_tokens) :
    List.Chain' (AdjRel f cfg.overlap_tokens) (chunk_token_aware cfg text f) := by
  have hgood : goodWords (splitWS text) := splitWS_good text
  have hfold := ta_fold_adj cfg f hk (splitWS text) ⟨[], [], 0, 0, 0⟩ hgood
    (by intro q hq; simp at hq) (by simp)
    (by intro last h; simp at h)
  unfold chunk_token_aware
  by_cases hcur : ((splitWS text).foldl (taStep cfg f)
      ⟨[], [], 0, 0, 0⟩).current_chunk_words = []
  · rw [if_neg (by simpa using hcur)]
    exact hfold.2.1
  · rw [if_pos (by simpa using hcur)]
    rw [List.chain'_append]
    refine ⟨hfold.2.1, by simp, ?_⟩
    intro x hx y hy
    simp at hy
    subst hy
    rcases hfold.2.2 x (by simpa using hx) with ⟨rest, hrest⟩
    refine ⟨rest, ?_⟩
    rw [splitWS_joinSep _ hfold.1]
    exact hrest

theorem chain_rel_of_get2 {α : Type} {R : α → α → Prop} {l : List α}
    (h : List.Chain' R l) :
    ∀ (i : Nat) (a b : α), l.get? i = some a → l.get? (i + 1) = some b → R a b := by
  rw [List.chain'_iff_get] at h
  intro i a b ha hb
  rcases List.get?_eq_some.mp ha with ⟨h1, e1⟩
  rcases List.get?_eq_some.mp hb with ⟨h2, e2⟩
  have hi := h i (by omega)
  rw [← e1, ← e2]
  exact hi

/-- C3: in token_aware mode with positive `overlap_tokens = k`, for every
pair of consecutive chunks i and i+1, the overlap-word list computed from
chunk i's words is a suffix of chunk i's word list, is a prefix of chunk
i+1's word list, and its summed estimate is at most k. -/
theorem C3_overlap_correct (cfg : ChunkingConfig) (text : Str)
    (f : Str → Nat) (hm : cfg.method = ("token_aware").data)
    (hk : 0 < cfg.overlap_tokens) (i : Nat) (a b : Chunk)
    (ha : (chunk_text cfg text f).get? i = some a)
    (hb : (chunk_text cfg text f).get? (i + 1) = some b) :
    (∃ pre, pre ++ get_overlap_words f cfg.overlap_tokens (splitWS a.text) =
      splitWS a.text) ∧
    (∃ rest, splitWS b.text =
      get_overlap_words f cfg.overlap_tokens (splitWS a.text) ++ rest) ∧
    ((get_overlap_words f cfg.overlap_tokens (splitWS a.text)).map f).sum ≤
      cfg.overlap_tokens := by
  refine ⟨get_overlap_words_suffix f _ _, ?_, get_overlap_words_sum f _ _⟩
  have hchain : List.Chain' (AdjRel f cfg.overlap_tokens)
      (chunk_text cfg text f) := by
    unfold chunk_text
    by_cases hguard : strip text = []
    · rw [if_pos hguard]
      simp
    · rw [if_neg hguard, hm, if_neg (by decide), if_neg (by decide),
        if_neg (by decide), if_pos rfl]
      exact token_chain cfg text f hk
  exact chain_rel_of_get2 hchain i a b ha hb

/-- C3 witness: the overlap property applied to the two consecutive
chunks of a concrete token-aware run (`max_tokens = 2`,
`overlap_tokens = 1`, unit estimator on `"a b c"`). -/
theorem C3_overlap_correct_witness :
    (∃ pre, pre ++ get_overlap_words (fun _ => 1) 1 (splitWS (("a b").data)) =
      splitWS (("a b").data)) ∧
    (∃ rest, splitWS (("b c").data) =
      get_overlap_words (fun _ => 1) 1 (splitWS (("a b").data)) ++ rest) ∧
    ((get_overlap_words (fun _ => 1) 1
      (splitWS (("a b").data))).map (fun _ => 1)).sum ≤ 1 :=
  C3_overlap_correct { method := ("token_aware").data
                       max_tokens := 2
                       overlap_tokens := 1 } (("a b c").data) (fun _ => 1)
    rfl (by decide) 0 ⟨("a b").data, 2, 1, 4, 0⟩ ⟨("b c").data, 2, 3, 6, 1⟩
    (by decide) (by decide)

/-!  ## The cleaner (`wolfcore/cleaner.py`)  -/

/-- Blank-line management loop of `clean_code_content`: `cb` is
`consecutive_blanks`, `tbs` is `total_blank_sections`
(`max_blank_sections = 2`). -/
def blankAux : List Str → Nat → Nat → List Str
  | [], _, _ => []
  | l :: ls, cb, tbs =>
      if l = [] then
        if cb + 1 ≤ 1 ∧ tbs < 2 then [] :: blankAux ls (cb + 1) tbs
        else blankAux ls (cb + 1) tbs
      else
        l :: blankAux ls 0 (if 0 < cb then tbs + 1 else tbs)

/-- `clean_code_content`: right-trim every line, apply the aggressive
blank-line management, rejoin with `"\n"` and strip. -/
def clean_code_content (text : Str) : Str :=
  if text = [] then text
  else
    let lines := splitChar '\n' text
    let cleaned_lines := lines.map rstrip
    let result := blankAux cleaned_lines 0 0
    strip (joinSep (['\n']) result)

/-- Case-insensitive (ASCII) prefix test, for `re.IGNORECASE` literals. -/
def ciStartsWith : Str → Str → Bool
  | [], _ => true
  | _ :: _, [] => false
  | a :: as, b :: bs => lowerChar a = lowerChar b && ciStartsWith as bs

/-- Worker for `gutSub`: leftmost non-overlapping matches of
`key.*?\*\*\*` (DOTALL, IGNORECASE) replaced by nothing; the lazy `.*?`
ends at the first `"***"` after the key. -/
def gutSubFuel (key : Str) : Nat → Str → Str
  | 0, s => s
  | fuel + 1, s =>
      match s with
      | [] => []
      | c :: rest =>
          if ciStartsWith key (c :: rest) then
            match pyFindIdx (("***").data) ((c :: rest).drop key.length) with
            | some i =>
                gutSubFuel key fuel (((c :: rest).drop key.length).drop (i + 3))
            | none => c :: gutSubFuel key fuel rest
          else c :: gutSubFuel key fuel rest

/-- `re.sub(key + r".*?\*\*\*", "", s, flags=re.IGNORECASE | re.DOTALL)`. -/
def gutSub (key s : Str) : Str := gutSubFuel key (s.length + 1) s

/-- A line matching `^Page \d+ of \d+.*$`. -/
def isPageLine (l : Str) : Bool :=
  startsWith (("Page ").data) l &&
    (let r := l.drop 5
     let ds := r.takeWhile isDigitC
     decide (ds ≠ []) &&
       (let r2 := r.drop ds.length
        startsWith ((" of ").data) r2 &&
          decide ((r2.drop 4).takeWhile isDigitC ≠ [])))

/-- `re.sub(r"^Page \d+ of \d+.*$", "", s, flags=re.MULTILINE)`: the
pattern cannot cross a newline and spans whole lines, so it deletes the
content of every matching line. -/
def pageSub (s : Str) : Str :=
  joinSep (['\n']) ((splitChar '\n' s).map (fun l => if isPageLine l then [] else l))

/-- `$` of a multiline pattern holds at a position: end of string or
before a newline. -/
def dollarOk : Str → Bool
  | [] => true
  | c :: _ => c = '\n'

/-- Largest `t ≤ n` with `$` holding after dropping `t` characters of `r`
(the backtracking of a greedy `\s*` before `$`). -/
def findT (r : Str) : Nat → Option Nat
  | 0 => if dollarOk r then some 0 else none
  | t + 1 => if dollarOk (r.drop (t + 1)) then some (t + 1) else findT r t

/-- Worker for `digitLineSub`; `atLS` records whether the scan position is
a `^` position (start of string or just after a newline). -/
def digitLineSubFuel : Nat → Str → Bool → Str
  | 0, s, _ => s
  | fuel + 1, s, atLS =>
      match s with
      | [] => []
      | c :: rest =>
          if atLS && isDigitC c then
            let ds := (c :: rest).takeWhile isDigitC
            let r := (c :: rest).drop ds.length
            let w := r.takeWhile isSpace
            match findT r w.length with
            | some t =>
                digitLineSubFuel fuel (r.drop t)
                  (decide (0 < t) && decide ((r.take t).getLast? = some '\n'))
            | none => c :: digitLineSubFuel fuel rest (decide (c = '\n'))
          else c :: digitLineSubFuel fuel rest (decide (c = '\n'))

/-- `re.sub(r"^\d+\s*$", "", s, flags=re.MULTILINE)`: a digit run at a
line start followed by the longest whitespace run after which `$` holds
(the match may consume newlines). -/
def digitLineSub (s : Str) : Str := digitLineSubFuel (s.length + 1) s true

/-- `re.sub(r'[•\-\*]', '', s)`: delete every bullet character. -/
def bulletSub (s : Str) : Str :=
  s.filter (fun c => !(c = '•' || c = '-' || c = '*'))

/-- Worker for `numListSub`: `^\s*\d+\.\s+` at `^` positions; `\s*` is
forced maximal (no digit can occur inside a whitespace run). -/
def numListSubFuel : Nat → Str → Bool → Str
  | 0, s, _ => s
  | fuel + 1, s, atLS =>
      match s with
      | [] => []
      | c :: rest =>
          if atLS then
            let w := (c :: rest).takeWhile isSpace
            let r1 := (c :: rest).drop w.length
            let ds := r1.takeWhile isDigitC
            if ds = [] then c :: numListSubFuel fuel rest (decide (c = '\n'))
            else
              match r1.drop ds.length with
              | '.' :: r3 =>
                  let w2 := r3.takeWhile isSpace
                  if w2 = [] then c :: numListSubFuel fuel rest (decide (c = '\n'))
                  else numListSubFuel fuel (r3.drop w2.length)
                    (decide (w2.getLast? = some '\n'))
              | _ => c :: numListSubFuel fuel rest (decide (c = '\n'))
          else c :: numListSubFuel fuel rest (decide (c = '\n'))

/-- `re.sub(r"^\s*\d+\.\s+", "", s, flags=re.MULTILINE)`. -/
def numListSub (s : Str) : Str := numListSubFuel (s.length + 1) s true

/-- Worker for `singleNL`: the previous original character is carried for
the lookbehind `(?<!\n)`. -/
def singleNLAux : Str → Option Char → Str
  | [], _ => []
  | c :: rest, prev =>
      if c = '\n' ∧ prev ≠ some '\n' ∧ rest.head? ≠ some '\n' then
        ' ' :: singleNLAux rest (some '\n')
      else c :: singleNLAux rest (some c)

/-- `re.sub(r'(?<!\n)\n(?!\n)', ' ', s)`: isolated newlines become
spaces. -/
def singleNL (s : Str) : Str := singleNLAux s none

/-- Worker for `spaceTabOne`: `inRun` is true inside a space/tab run whose
single replacement space was already emitted. -/
def spaceTabAux : Str → Bool → Str
  | [], _ => []
  | c :: rest, inRun =>
      if c = ' ' || c = '\t' then
        if inRun then spaceTabAux rest true
        else ' ' :: spaceTabAux rest true
      else c :: spaceTabAux rest false

/-- `re.sub(r'[ \t]+', ' ', s)`. -/
def spaceTabOne (s : Str) : Str := spaceTabAux s false

/-- `re.sub(r'^ +', '', s, flags=re.MULTILINE)`: drop leading spaces
(spaces only) of every line. -/
def leadSpaces (s : Str) : Str :=
  joinSep (['\n']) ((splitChar '\n' s).map (fun l => l.dropWhile (fun c => c = ' ')))

/-- `re.sub(r' +$', '', s, flags=re.MULTILINE)`: drop trailing spaces of
every line. -/
def trailSpaces (s : Str) : Str :=
  joinSep (['\n'])
    ((splitChar '\n' s).map (fun l => (l.reverse.dropWhile (fun c => c = ' ')).reverse))

/-- Worker for `nlCap`: `n` counts the pending newline run; a run is
emitted capped at two newlines. -/
def nlCapAux : Str → Nat → Str
  | [], n => List.replicate (min n 2) '\n'
  | c :: rest, n =>
      if c = '\n' then nlCapAux rest (n + 1)
      else List.replicate (min n 2) '\n' ++ c :: nlCapAux rest 0

/-- `re.sub(r'\n{3,}', '\n\n', s)`. -/
def nlCap (s : Str) : Str := nlCapAux s 0

/-- `clean_document_content` with its three flags (defaults all true):
header/footer stripping, bullet stripping, whitespace normalisation, in
source order, then a final strip. -/
def clean_document_content (text : Str) (remove_headers : Bool)
    (normalize_whitespace : Bool) (strip_bullets : Bool) : Str :=
  if text = [] then text
  else
    let t1 := if remove_headers then
        digitLineSub (pageSub (gutSub (("*** END OF").data)
          (gutSub (("*** START OF").data) text)))
      else text
    let t2 := if strip_bullets then numListSub (bulletSub t1) else t1
    let t3 := if normalize_whitespace then
        nlCap (trailSpaces (leadSpaces (spaceTabOne (singleNL t2))))
      else t2
    strip t3

/-!  ## C8: idempotence toolkit for stripping  -/

theorem dropWhile_idem (p : Char → Bool) (l : Str) :
    (l.dropWhile p).dropWhile p = l.dropWhile p := by
  cases h : l.dropWhile p with
  | nil => rfl
  | cons c w =>
      rw [List.dropWhile_cons, if_neg]
      rw [dropWhile_head_not p l c w h]
      simp

theorem lstrip_idem (l : Str) : lstrip (lstrip l) = lstrip l :=
  dropWhile_idem isSpace l

theorem rstrip_idem (l : Str) : rstrip (rstrip l) = rstrip l := by
  unfold rstrip
  rw [List.reverse_reverse, dropWhile_idem]

theorem rstrip_last (l : Str) (h : rstrip l = l) (hne : l ≠ []) :
    ∃ c w, l.reverse = c :: w ∧ isSpace c = false := by
  rcases hrev : l.reverse with _ | ⟨c, w⟩
  · exact absurd (by simpa using hrev) hne
  · refine ⟨c, w, rfl, ?_⟩
    have hd : l.reverse.dropWhile isSpace = l.reverse := by
      have h2 := congrArg List.reverse h
      unfold rstrip at h2
      rw [List.reverse_reverse] at h2
      exact h2
    rw [hrev] at hd
    by_contra hws
    rw [List.dropWhile_cons, if_pos (by simpa using hws)] at hd
    have hlen := congrArg List.length hd
    have hle := (List.dropWhile_sublist (l := w) (p := isSpace)).length_le
    simp at hlen
    omega

theorem rstripped_hasInk (l : Str) (h : rstrip l = l) (hne : l ≠ []) :
    hasInk l := by
  rcases rstrip_last l h hne with ⟨c, w, hrev, hc⟩
  refine ⟨c, ?_, hc⟩
  rw [← List.mem_reverse, hrev]
  simp

theorem rstrip_lstrip (l : Str) (h : rstrip l = l) :
    rstrip (lstrip l) = lstrip l := by
  by_cases hnil : lstrip l = []
  · rw [hnil]
    rfl
  · rcases hrev : (lstrip l).reverse with _ | ⟨c, w⟩
    · exact absurd (by simpa using hrev) hnil
    · have hsuffix : l.reverse = (lstrip l).reverse ++ (l.takeWhile isSpace).reverse := by
        rw [← List.reverse_append]
        show l.reverse = (l.takeWhile isSpace ++ l.dropWhile isSpace).reverse
        rw [List.takeWhile_append_dropWhile]
      have hc : isSpace c = false := by
        rcases rstrip_last l h (by
          intro hl
          rw [hl] at hnil
          exact hnil rfl) with ⟨c2, w2, hrev2, hc2⟩
        have hceq : c2 = c := by
          rw [hsuffix, hrev, List.cons_append] at hrev2
          injection hrev2 with h1 h2
          exact h1.symm
        rw [← hceq]
        exact hc2
      unfold rstrip
      rw [hrev, List.dropWhile_cons, if_neg (by simp [hc])]
      rw [← hrev, List.reverse_reverse]

theorem strip_idem (l : Str) : strip (strip l) = strip l := by
  unfold strip
  rw [rstrip_lstrip (rstrip l) (rstrip_idem l), lstrip_idem]

theorem lstrip_append_ink (a z : Str) (h : hasInk a) :
    lstrip (a ++ z) = lstrip a ++ z := by
  induction a with
  | nil =>
      rcases h with ⟨c, hc, _⟩
      simp at hc
  | cons c a' ih =>
      by_cases hws : isSpace c = true
      · have hink : hasInk a' := by
          rcases h with ⟨c2, hc2, hcs2⟩
          rcases List.mem_cons.mp hc2 with h2 | h2
          · subst h2
            rw [hws] at hcs2
            cases hcs2
          · exact ⟨c2, h2, hcs2⟩
        rw [List.cons_append]
        unfold lstrip
        rw [List.dropWhile_cons, if_pos hws, List.dropWhile_cons, if_pos hws]
        exact ih hink
      · rw [List.cons_append]
        unfold lstrip
        rw [List.dropWhile_cons, if_neg hws, List.dropWhile_cons, if_neg hws]
        simp

theorem rstrip_append_ws (z : Str) (c : Char) (hc : isSpace c = true) :
    rstrip (z ++ [c]) = rstrip z := by
  unfold rstrip
  rw [List.reverse_append]
  simp [List.dropWhile_cons, hc]

theorem rstrip_append_rstripped (z a : Str) (ha : rstrip a = a) (hne : a ≠ []) :
    rstrip (z ++ a) = z ++ a := by
  rcases rstrip_last a ha hne with ⟨c, w, hrev, hc⟩
  unfold rstrip
  rw [List.reverse_append, hrev, List.cons_append, List.dropWhile_cons,
    if_neg (by simp [hc]), ← List.cons_append, ← hrev, ← List.reverse_append,
    List.reverse_reverse]

/-!  ## C8: split/join inverse and blank-line structure  -/

theorem splitCharAux_no_sep (sep : Char) :
    ∀ (s cur : Str), (∀ c ∈ s, c ≠ sep) →
    splitCharAux sep s cur = [cur.reverse ++ s] := by
  intro s
  induction s with
  | nil => intro cur _; simp [splitCharAux]
  | cons a rest ih =>
      intro cur hs
      unfold splitCharAux
      rw [if_neg (by simpa using hs a (by simp))]
      rw [ih (a :: cur) (fun c hc => hs c (by simp [hc]))]
      simp

theorem splitCharAux_append (sep : Char) :
    ∀ (x r cur : Str), (∀ c ∈ x, c ≠ sep) →
    splitCharAux sep (x ++ r) cur = splitCharAux sep r (x.reverse ++ cur) := by
  intro x
  induction x with
  | nil => intro r cur _; simp
  | cons a x' ih =>
      intro r cur hx
      rw [List.cons_append]
      have hstep : splitCharAux sep (a :: (x' ++ r)) cur =
          splitCharAux sep (x' ++ r) (a :: cur) := by
        conv_lhs => simp only [splitCharAux]
        rw [if_neg (by simpa using hx a (by simp))]
      rw [hstep, ih r (a :: cur) (fun c hc => hx c (by simp [hc]))]
      congr 1
      simp

theorem splitCharAux_mem_no_sep (sep : Char) :
    ∀ (s cur : Str), (∀ c ∈ cur, c ≠ sep) →
    ∀ p ∈ splitCharAux sep s cur, ∀ c ∈ p, c ≠ sep := by
  intro s
  induction s with
  | nil =>
      intro cur hcur p hp c hc
      simp [splitCharAux] at hp
      subst hp
      exact hcur c (List.mem_reverse.mp hc)
  | cons a rest ih =>
      intro cur hcur p hp c hc
      unfold splitCharAux at hp
      by_cases ha : a = sep
      · rw [if_pos ha] at hp
        rcases List.mem_cons.mp hp with hp | hp
        · subst hp
          exact hcur c (List.mem_reverse.mp hc)
        · exact ih [] (by simp) p hp c hc
      · rw [if_neg ha] at hp
        refine ih (a :: cur) ?_ p hp c hc
        intro c2 hc2
        rcases List.mem_cons.mp hc2 with hc2 | hc2
        · subst hc2; exact ha
        · exact hcur c2 hc2

theorem splitChar_joinSep :
    ∀ (ls : List Str), ls ≠ [] → (∀ l ∈ ls, ∀ c ∈ l, c ≠ '\n') →
    splitChar '\n' (joinSep (['\n']) ls) = ls := by
  intro ls
  induction ls with
  | nil => intro h _; exact absurd rfl h
  | cons x tl ih =>
      intro _ hls
      cases tl with
      | nil =>
          show splitCharAux '\n' x [] = [x]
          rw [splitCharAux_no_sep '\n' x [] (hls x (by simp))]
          simp
      | cons y tl2 =>
          rw [joinSep_cons (['\n']) x (y :: tl2) (by simp)]
          unfold splitChar
          rw [List.append_assoc,
            splitCharAux_append '\n' x (['\n'] ++ joinSep (['\n']) (y :: tl2)) []
              (hls x (by simp))]
          show splitCharAux '\n' ('\n' :: joinSep (['\n']) (y :: tl2))
            (x.reverse ++ []) = _
          unfold splitCharAux
          rw [if_pos rfl]
          have ihr := ih (by simp) (fun l hl => hls l (by simp [hl]))
          unfold splitChar at ihr
          rw [ihr]
          simp

theorem blankAux_mem :
    ∀ (ls : List Str) (cb tbs : Nat), ∀ r ∈ blankAux ls cb tbs,
    r = [] ∨ r ∈ ls := by
  intro ls
  induction ls with
  | nil => intro cb tbs r hr; simp [blankAux] at hr
  | cons l ls ih =>
      intro cb tbs r hr
      unfold blankAux at hr
      by_cases hl : l = []
      · rw [if_pos hl] at hr
        by_cases hcond : cb + 1 ≤ 1 ∧ tbs < 2
        · rw [if_pos hcond] at hr
          rcases List.mem_cons.mp hr with hr | hr
          · exact Or.inl hr
          · rcases ih (cb + 1) tbs r hr with h | h
            · exact Or.inl h
            · exact Or.inr (by simp [h])
        · rw [if_neg hcond] at hr
          rcases ih (cb + 1) tbs r hr with h | h
          · exact Or.inl h
          · exact Or.inr (by simp [h])
      · rw [if_neg hl] at hr
        rcases List.mem_cons.mp hr with hr | hr
        · exact Or.inr (by simp [hr])
        · rcases ih 0 _ r hr with h | h
          · exact Or.inl h
          · exact Or.inr (by simp [h])

theorem blankAux_chain :
    ∀ (ls : List Str) (cb tbs : Nat),
    List.Chain' (fun a b => a = [] → b ≠ []) (blankAux ls cb tbs) ∧
    (0 < cb → ∀ h, (blankAux ls cb tbs).head? = some h → h ≠ []) := by
  intro ls
  induction ls with
  | nil =>
      intro cb tbs
      constructor
      · simp [blankAux]
      · intro _ h hh
        simp [blankAux] at hh
  | cons l ls ih =>
      intro cb tbs
      unfold blankAux
      by_cases hl : l = []
      · rw [if_pos hl]
        by_cases hcond : cb + 1 ≤ 1 ∧ tbs < 2
        · rw [if_pos hcond]
          have hcb : cb = 0 := by omega
          subst hcb
          constructor
          · rw [List.chain'_cons']
            refine ⟨?_, (ih 1 tbs).1⟩
            intro y hy _
            exact (ih 1 tbs).2 (by omega) y (Option.mem_def.mp hy)
          · intro hcb2 h hh
            omega
        · rw [if_neg hcond]
          constructor
          · exact (ih (cb + 1) tbs).1
          · intro _ h hh
            exact (ih (cb + 1) tbs).2 (by omega) h hh
      · rw [if_neg hl]
        constructor
        · rw [List.chain'_cons']
          refine ⟨?_, (ih 0 _).1⟩
          intro y _ hfalse
          exact absurd hfalse hl
        · intro _ h hh
          simp at hh
          rw [← hh]
          exact hl

/-- Number of blank lines in a line list. -/
def countB : List Str → Nat
  | [] => 0
  | l :: ls => (if l = [] then 1 else 0) + countB ls

theorem countB_nil : countB [] = 0 := rfl

theorem countB_cons (l : Str) (ls : List Str) :
    countB (l :: ls) = (if l = [] then 1 else 0) + countB ls := rfl

theorem countB_append (a b : List Str) :
    countB (a ++ b) = countB a + countB b := by
  induction a with
  | nil => simp [countB_nil]
  | cons l a ih =>
      rw [List.cons_append, countB_cons, countB_cons, ih]
      omega

theorem countB_reverse (a : List Str) : countB a.reverse = countB a := by
  induction a with
  | nil => rfl
  | cons l a ih =>
      rw [List.reverse_cons, countB_append, ih, countB_cons, countB_cons,
        countB_nil]
      omega

theorem countB_dropWhile_le (p : Str → Bool) (a : List Str) :
    countB (a.dropWhile p) ≤ countB a := by
  conv_rhs => rw [← List.takeWhile_append_dropWhile p a]
  rw [countB_append]
  omega

theorem blankAux_count :
    ∀ (ls : List Str) (cb tbs : Nat),
    countB (blankAux ls cb tbs) ≤ 2 - (tbs + min cb 1) := by
  intro ls
  induction ls with
  | nil => intro cb tbs; simp [blankAux, countB]
  | cons l ls ih =>
      intro cb tbs
      unfold blankAux
      by_cases hl : l = []
      · rw [if_pos hl]
        by_cases hcond : cb + 1 ≤ 1 ∧ tbs < 2
        · rw [if_pos hcond]
          have hcb : cb = 0 := by omega
          subst hcb
          have hrec := ih 1 tbs
          have h1 : min (1 : Nat) 1 = 1 := rfl
          have h0 : min (0 : Nat) 1 = 0 := rfl
          rw [h1] at hrec
          rw [h0, countB_cons, if_pos rfl]
          simp only [Nat.zero_add] at hrec ⊢
          omega
        · rw [if_neg hcond]
          have hrec := ih (cb + 1) tbs
          rw [Nat.min_eq_right (by omega : 1 ≤ cb + 1)] at hrec
          have hmin : min cb 1 ≤ 1 := Nat.min_le_right cb 1
          omega
      · rw [if_neg hl]
        rw [countB_cons, if_neg hl]
        by_cases hcb : 0 < cb
        · rw [if_pos hcb]
          have hrec := ih 0 (tbs + 1)
          have h0 : min (0 : Nat) 1 = 0 := rfl
          rw [h0] at hrec
          have hmin : min cb 1 ≤ 1 := Nat.min_le_right cb 1
          omega
        · have hcb0 : cb = 0 := by omega
          subst hcb0
          have hrec := ih 0 tbs
          have h0 : min (0 : Nat) 1 = 0 := rfl
          rw [h0] at hrec ⊢
          rw [if_neg (by omega : ¬ (0:Nat) < 0)]
          omega

theorem blankAux_id :
    ∀ (ls : List Str) (cb tbs : Nat),
    List.Chain' (fun a b => a = [] → b ≠ []) ls →
    (0 < cb → ∀ h, ls.head? = some h → h ≠ []) →
    countB ls + tbs + (if 0 < cb then 1 else 0) ≤ 2 →
    blankAux ls cb tbs = ls := by
  intro ls
  induction ls with
  | nil => intro cb tbs _ _ _; rfl
  | cons l ls ih =>
      intro cb tbs hchain hhead hcount
      unfold blankAux
      by_cases hl : l = []
      · have hcb : cb = 0 := by
          by_contra hc
          exact hhead (by omega) l rfl hl
        subst hcb
        have hcc := List.chain'_cons'.mp hchain
        rw [countB_cons, if_pos hl] at hcount
        rw [if_neg (by omega : ¬ (0:Nat) < 0)] at hcount
        rw [if_pos hl, if_pos (by omega)]
        have htail : blankAux ls (0 + 1) tbs = ls := by
          refine ih (0 + 1) tbs hcc.2 ?_ ?_
          · intro _ h hh
            have h2 := hcc.1 h (Option.mem_def.mpr hh)
            rw [hl] at h2
            exact h2 rfl
          · rw [if_pos (by omega : (0:Nat) < 0 + 1)]
            omega
        rw [htail, hl]
      · rw [if_neg hl]
        have hcc := List.chain'_cons'.mp hchain
        rw [countB_cons, if_neg hl] at hcount
        have htail : blankAux ls 0 (if 0 < cb then tbs + 1 else tbs) = ls := by
          refine ih 0 _ hcc.2 (fun h => absurd h (by omega)) ?_
          rw [if_neg (by omega : ¬ (0:Nat) < 0)]
          by_cases hcb : 0 < cb
          · rw [if_pos hcb]
            rw [if_pos hcb] at hcount
            omega
          · rw [if_neg hcb]
            rw [if_neg hcb] at hcount
            omega
        rw [htail]

/-!  ## C8: strip/join decomposition and the idempotence theorem  -/

/-- Blank line test. -/
def isB (l : Str) : Bool := decide (l = [])

/-- Drop leading blank lines. -/
def dropLeadB (R : List Str) : List Str := R.dropWhile isB

/-- Drop trailing blank lines. -/
def dropTrailB (R : List Str) : List Str := (R.reverse.dropWhile isB).reverse

/-- Apply a function to the first element only. -/
def modFirst (g : Str → Str) : List Str → List Str
  | [] => []
  | x :: t => g x :: t

theorem dropWhile_head_not_gen {α : Type} (p : α → Bool) :
    ∀ (l : List α) (x : α) (xs : List α), l.dropWhile p = x :: xs → p x = false := by
  intro l
  induction l with
  | nil => intro x xs h; simp at h
  | cons a as ih =>
      intro x xs h
      rw [List.dropWhile_cons] at h
      by_cases hpa : p a = true
      · rw [if_pos hpa] at h
        exact ih x xs h
      · rw [if_neg hpa] at h
        cases h
        simpa using hpa

theorem dropTrailB_append_blank (R : List Str) :
    dropTrailB (R ++ [[]]) = dropTrailB R := by
  unfold dropTrailB
  rw [List.reverse_append]
  show ((([] : Str) :: R.reverse).dropWhile isB).reverse = _
  rw [List.dropWhile_cons, if_pos (by simp [isB])]

theorem dropTrailB_append_nonblank (R : List Str) (a : Str) (ha : a ≠ []) :
    dropTrailB (R ++ [a]) = R ++ [a] := by
  unfold dropTrailB
  rw [List.reverse_append]
  show ((a :: R.reverse).dropWhile isB).reverse = _
  rw [List.dropWhile_cons, if_neg (by simp [isB, ha])]
  simp

theorem mem_dropTrailB (R : List Str) (r : Str) (hr : r ∈ dropTrailB R) :
    r ∈ R := by
  unfold dropTrailB at hr
  rw [List.mem_reverse] at hr
  exact List.mem_reverse.mp ((List.dropWhile_sublist isB).subset hr)

theorem mem_dropLeadB (R : List Str) (r : Str) (hr : r ∈ dropLeadB R) :
    r ∈ R :=
  (List.dropWhile_sublist isB).subset hr

theorem rstrip_joinSep (R : List Str) (hA : ∀ l ∈ R, rstrip l = l) :
    rstrip (joinSep (['\n']) R) = joinSep (['\n']) (dropTrailB R) := by
  induction R using List.reverseRecOn with
  | nil => rfl
  | append_singleton R a ih =>
      by_cases ha : a = []
      · subst ha
        rw [dropTrailB_append_blank]
        rcases R with _ | ⟨r0, R'⟩
        · rfl
        · rw [joinSep_append_singleton (['\n']) [] (r0 :: R') (by simp),
            List.append_nil,
            rstrip_append_ws (joinSep (['\n']) (r0 :: R')) '\n' (by decide)]
          exact ih (fun l hl => hA l (by simp at hl ⊢; tauto))
      · rw [dropTrailB_append_nonblank R a ha]
        have haa : rstrip a = a := hA a (by simp)
        rcases R with _ | ⟨r0, R'⟩
        · show rstrip (joinSep (['\n']) [a]) = joinSep (['\n']) [a]
          show rstrip a = a
          exact haa
        · rw [joinSep_append_singleton (['\n']) a (r0 :: R') (by simp)]
          exact rstrip_append_rstripped _ a haa ha

theorem lstrip_joinSep (R : List Str) (hA : ∀ l ∈ R, rstrip l = l) :
    lstrip (joinSep (['\n']) R) =
    joinSep (['\n']) (modFirst lstrip (dropLeadB R)) := by
  induction R with
  | nil => rfl
  | cons a R' ih =>
      by_cases ha : a = []
      · subst ha
        show lstrip (joinSep (['\n']) ([] :: R')) =
          joinSep (['\n']) (modFirst lstrip (dropLeadB R'))
        rcases R' with _ | ⟨r1, R''⟩
        · rfl
        · rw [joinSep_cons (['\n']) [] (r1 :: R'') (by simp)]
          show lstrip ('\n' :: joinSep (['\n']) (r1 :: R'')) = _
          show (('\n' :: joinSep (['\n']) (r1 :: R'')).dropWhile isSpace) = _
          rw [List.dropWhile_cons, if_pos (by decide)]
          exact ih (fun l hl => hA l (by simp [hl]))
      · have hlead : dropLeadB (a :: R') = a :: R' := by
          unfold dropLeadB
          rw [List.dropWhile_cons, if_neg (by simp [isB, ha])]
        rw [hlead]
        have hink : hasInk a := rstripped_hasInk a (hA a (by simp)) ha
        rcases R' with _ | ⟨r1, R''⟩
        · show lstrip (joinSep (['\n']) [a]) = joinSep (['\n']) [lstrip a]
          show lstrip a = lstrip a
          rfl
        · show _ = joinSep (['\n']) (lstrip a :: r1 :: R'')
          rw [joinSep_cons (['\n']) a (r1 :: R'') (by simp),
            joinSep_cons (['\n']) (lstrip a) (r1 :: R'') (by simp),
            List.append_assoc, lstrip_append_ink a _ hink, List.append_assoc]

theorem strip_joinSep_eq (R : List Str) (hA : ∀ l ∈ R, rstrip l = l) :
    strip (joinSep (['\n']) R) =
    joinSep (['\n']) (modFirst lstrip (dropLeadB (dropTrailB R))) := by
  unfold strip
  rw [rstrip_joinSep R hA,
    lstrip_joinSep (dropTrailB R) (fun l hl => hA l (mem_dropTrailB R l hl))]

theorem chain_trim (R : List Str)
    (h : List.Chain' (fun a b => a = [] → b ≠ []) R) :
    List.Chain' (fun a b => a = [] → b ≠ []) (dropLeadB (dropTrailB R)) := by
  have h1 : dropTrailB R <+: R := by
    rw [← List.reverse_suffix]
    unfold dropTrailB
    rw [List.reverse_reverse]
    exact List.dropWhile_suffix isB
  have h2 : dropLeadB (dropTrailB R) <:+ dropTrailB R :=
    List.dropWhile_suffix isB
  exact h.infix (h2.isInfix.trans h1.isInfix)

theorem countB_trim (R : List Str) :
    countB (dropLeadB (dropTrailB R)) ≤ countB R := by
  have h1 : countB (dropTrailB R) ≤ countB R := by
    unfold dropTrailB
    rw [countB_reverse]
    calc countB (R.reverse.dropWhile isB) ≤ countB R.reverse :=
          countB_dropWhile_le isB R.reverse
      _ = countB R := countB_reverse R
  exact le_trans (countB_dropWhile_le isB (dropTrailB R)) h1

/-- C8 counterexample: the default-flag document cleaner is not
idempotent: on `"1. 2. x"` the first pass strips the leading `"1. "`
numbered-list marker, exposing `"2. "` at the line start, which only the
second pass strips — `clean(clean(x)) = "x" ≠ "2. x" = clean(x)`. -/
theorem C8_cleaning_idempotent_cx :
    clean_document_content (("1. 2. x").data) true true true = ("2. x").data ∧
    clean_document_content
      (clean_document_content (("1. 2. x").data) true true true)
      true true true = ("x").data ∧
    ("x").data ≠ ("2. x").data := by
  exact ⟨by decide, by decide, by decide⟩

/-- C8 (amended): cleaning is idempotent for the code path:
`clean_code_content (clean_code_content x) = clean_code_content x` for
every input.  (The document path is not idempotent with the default
flags, as the counterexample shows.) -/
theorem C8_clean_code_idempotent (x : Str) :
    clean_code_content (clean_code_content x) = clean_code_content x := by
  by_cases hx : x = []
  · subst hx
    rfl
  · have hy : clean_code_content x =
        strip (joinSep (['\n'])
          (blankAux ((splitChar '\n' x).map rstrip) 0 0)) := by
      unfold clean_code_content
      rw [if_neg hx]
    set R := blankAux ((splitChar '\n' x).map rstrip) 0 0 with hR
    have hA : ∀ l ∈ R, rstrip l = l := by
      intro l hl
      rcases blankAux_mem ((splitChar '\n' x).map rstrip) 0 0 l hl with h | h
      · subst h
        rfl
      · rcases List.mem_map.mp h with ⟨l0, _, hmap⟩
        rw [← hmap]
        exact rstrip_idem l0
    have hB : ∀ l ∈ R, ∀ c ∈ l, c ≠ '\n' := by
      intro l hl c hc
      rcases blankAux_mem ((splitChar '\n' x).map rstrip) 0 0 l hl with h | h
      · subst h
        simp at hc
      · rcases List.mem_map.mp h with ⟨l0, hl0, hmap⟩
        have hcl0 : c ∈ l0 := by
          rw [← hmap] at hc
          exact mem_of_mem_rstrip l0 c hc
        exact splitCharAux_mem_no_sep '\n' x [] (by simp) l0 hl0 c hcl0
    have hchainR := (blankAux_chain ((splitChar '\n' x).map rstrip) 0 0).1
    have hcountR : countB R ≤ 2 := by
      have hc := blankAux_count ((splitChar '\n' x).map rstrip) 0 0
      simpa using hc
    set S := modFirst lstrip (dropLeadB (dropTrailB R)) with hS
    have hySJ : clean_code_content x = joinSep (['\n']) S := by
      rw [hy, strip_joinSep_eq R hA]
    by_cases hynil : clean_code_content x = []
    · rw [hynil]
      rfl
    · have hSne : S ≠ [] := by
        intro h
        rw [hySJ, h] at hynil
        exact hynil rfl
      have hmemT : ∀ l ∈ dropLeadB (dropTrailB R), l ∈ R := by
        intro l hl
        exact mem_dropTrailB R l (mem_dropLeadB (dropTrailB R) l hl)
      rcases hT : dropLeadB (dropTrailB R) with _ | ⟨t0, tl⟩
      · rw [hS, hT] at hSne
        exact absurd rfl hSne
      · have hSform : S = lstrip t0 :: tl := by
          rw [hS, hT]
          rfl
        have ht0R : t0 ∈ R := hmemT t0 (by rw [hT]; simp)
        have ht0ne : t0 ≠ [] := by
          have := dropWhile_head_not_gen isB (dropTrailB R) t0 tl hT
          simpa [isB] using this
        have ht0ink : hasInk t0 := rstripped_hasInk t0 (hA t0 ht0R) ht0ne
        have hlst0ne : lstrip t0 ≠ [] := by
          rcases ht0ink with ⟨c, hc, hcs⟩
          have : c ∈ lstrip t0 :=
            not_space_mem_dropWhile t0 c hc (by simp [hcs])
          intro hnil
          rw [hnil] at this
          simp at this
        have hAS : ∀ l ∈ S, rstrip l = l := by
          intro l hl
          rw [hSform] at hl
          rcases List.mem_cons.mp hl with hl | hl
          · subst hl
            exact rstrip_lstrip t0 (hA t0 ht0R)
          · exact hA l (hmemT l (by rw [hT]; simp [hl]))
        have hBS : ∀ l ∈ S, ∀ c ∈ l, c ≠ '\n' := by
          intro l hl c hc
          rw [hSform] at hl
          rcases List.mem_cons.mp hl with hl | hl
          · subst hl
            exact hB t0 ht0R c ((List.dropWhile_sublist isSpace).subset hc)
          · exact hB l (hmemT l (by rw [hT]; simp [hl])) c hc
        have hchainT := chain_trim R hchainR
        rw [hT] at hchainT
        have hchainS : List.Chain' (fun a b => a = [] → b ≠ []) S := by
          rw [hSform, List.chain'_cons']
          refine ⟨?_, (List.chain'_cons'.mp hchainT).2⟩
          intro y _ hfalse
          exact absurd hfalse hlst0ne
        have hcountT := countB_trim R
        rw [hT] at hcountT
        have hcountS : countB S ≤ 2 := by
          rw [hSform, countB_cons, if_neg hlst0ne]
          rw [countB_cons, if_neg ht0ne] at hcountT
          omega
        rw [hySJ]
        unfold clean_code_content
        rw [if_neg (by rw [← hySJ]; exact hynil)]
        rw [splitChar_joinSep S hSne hBS]
        have hmapid : S.map rstrip = S := by
          rw [List.map_congr_left hAS]
          exact List.map_id S
        dsimp only
        rw [hmapid]
        rw [blankAux_id S 0 0 hchainS (fun h => absurd h (by omega))
          (by rw [if_neg (by omega : ¬ (0:Nat) < 0)]; omega)]
        rw [← hySJ, hy]
        exact strip_idem _

end Wolfstitch
